import Mathlib

/-!
# Jacobi-based SVD (`svd_openmp.cpp`): embedding and checked properties

The C++ program works on `vector<vector<double>>`.  The embedding keeps the
loops of the source as explicit index loops over lists of rows.  Every element
access is bounds-checked: an access outside a vector (undefined behaviour in
C++) makes the embedded function return `none`.  Scalars are elements of a
linearly ordered field `α` (doubles read as exact numbers); the four `<cmath>`
functions the program calls are passed in a `Libm` record.

Properties that depend on `<cmath>` are stated over the real numbers with
`sqrt = Real.sqrt`, `cos = Real.cos`, `sin = Real.sin` and
`atan2 y x = arg (x + i y)`, the angle of the point `(x, y)` in `(-pi, pi]`
with `atan2 0 0 = 0`.  Vector sizes are assumed to fit in `int`.  The
`#pragma omp parallel for` loops write disjoint elements and are embedded as
sequential loops.
-/

set_option linter.unusedSectionVars false
set_option linter.unusedVariables false

namespace SvdOpenmp

section Generic

variable {α : Type}

/-- Rows of scalars, the source's `typedef vector<vector<double>> Matrix`
(named `Mat` because `Matrix` is taken by the library). -/
abbrev Mat (α : Type) := List (List α)

/-- The `<cmath>` functions used by the program: `sqrt`, `atan2 y x`, `cos`, `sin`. -/
structure Libm (α : Type) where
  sqrt : α → α
  atan2 : α → α → α
  cos : α → α
  sin : α → α

/-- Loop `for (i = lo; i < lo + cnt; ++i) s = body i s`, stopping with `none`
as soon as an iteration performs an out-of-bounds access. -/
def forLoop {σ : Type} (body : Nat → σ → Option σ) : Nat → Nat → σ → Option σ
  | _, 0, s => some s
  | i, k + 1, s => (body i s).bind (forLoop body (i + 1) k)

/-- Read `v[i]`. -/
def get1 (v : List α) (i : Nat) : Option α := v[i]?

/-- Write `v[i] = x`. -/
def set1 (v : List α) (i : Nat) (x : α) : Option (List α) :=
  if i < v.length then some (v.set i x) else none

/-- Read `A[i][j]`. -/
def get2 (A : Mat α) (i j : Nat) : Option α := (A[i]?).bind (fun r => r[j]?)

/-- Write `A[i][j] = x`. -/
def set2 (A : Mat α) (i j : Nat) (x : α) : Option (Mat α) :=
  (A[i]?).bind (fun r => if j < r.length then some (A.set i (r.set j x)) else none)

/-- Value `Matrix(r, vector<double>(c, 0.0))`. -/
def zeros [Zero α] (r c : Nat) : Mat α := List.replicate r (List.replicate c 0)

/-- Vector `[f 0, ..., f (n-1)]`. -/
def tab (n : Nat) (f : Nat → α) : List α := (List.range n).map f

/-- Matrix with `r` rows and `c` columns and entry `f i j` at row `i`, column `j`. -/
def tab2 (r c : Nat) (f : Nat → Nat → α) : Mat α := tab r (fun i => tab c (f i))

/-- Matrix `M` has `r` rows, each of `c` entries. -/
def IsRect (r c : Nat) (M : Mat α) : Prop := M.length = r ∧ ∀ row ∈ M, row.length = c

end Generic

section Program

variable {α : Type} [LinearOrderedField α]

/-- Function `matmul` (lines 12-21): loops `i`, `k`, `j` with `C[i][j] += A[i][k] * B[k][j]`. -/
def matmul (A B : Mat α) : Option (Mat α) := do
  let m := A.length
  let b0 ← B[0]?
  let n := b0.length
  let p := B.length
  forLoop (fun i C =>
    forLoop (fun k C =>
      forLoop (fun j C => do
        let cij ← get2 C i j
        let aik ← get2 A i k
        let bkj ← get2 B k j
        set2 C i j (cij + aik * bkj)) 0 n C) 0 p C) 0 m (zeros m n)

/-- Function `transpose` (lines 24-32). -/
def transpose (A : Mat α) : Option (Mat α) := do
  let m := A.length
  let a0 ← A[0]?
  let n := a0.length
  forLoop (fun i AT =>
    forLoop (fun j AT => do
      let aij ← get2 A i j
      set2 AT j i aij) 0 n AT) 0 m (zeros n m)

/-- Lines 42-50 of `jacobi_eigen`: scan of the strict upper triangle for the
largest `fabs(D[i][j])`; the state is `(p, q, max_offdiag)`, initially `(0, 1, 0)`. -/
def max_offdiag_scan (n : Nat) (D : Mat α) : Option (Nat × Nat × α) :=
  forLoop (fun i st =>
    forLoop (fun j st => do
      let d ← get2 D i j
      if |d| > st.2.2 then pure (i, j, |d|) else pure st) (i + 1) (n - (i + 1)) st)
    0 n (0, 1, 0)

/-- Lines 57-61 (on `D`) and 72-76 (on `V`) of `jacobi_eigen`: in every row
`i`, entries `p` and `q` are replaced by their rotated values. -/
def rotate_cols (c s : α) (n p q : Nat) (M : Mat α) : Option (Mat α) :=
  forLoop (fun i M =>
    (get2 M i p).bind fun mip =>
    (get2 M i q).bind fun miq =>
    (set2 M i p (c * mip - s * miq)).bind fun M =>
    set2 M i q (s * mip + c * miq)) 0 n M

/-- Lines 62-66 of `jacobi_eigen`: in every column `i`, entries of rows `p`
and `q` are replaced by their rotated values. -/
def rotate_rows (c s : α) (n p q : Nat) (D : Mat α) : Option (Mat α) :=
  forLoop (fun i D =>
    (get2 D p i).bind fun dip =>
    (get2 D q i).bind fun diq =>
    (set2 D p i (c * dip - s * diq)).bind fun D =>
    set2 D q i (s * dip + c * diq)) 0 n D

/-- Line 67 of `jacobi_eigen`: `D[p][p]` recomputed from the current entries. -/
def fix_pp (c s : α) (p q : Nat) (D : Mat α) : Option (Mat α) :=
  (get2 D p p).bind fun dpp =>
  (get2 D p q).bind fun dpq =>
  (get2 D q q).bind fun dqq =>
  set2 D p p (c * c * dpp - 2 * s * c * dpq + s * s * dqq)

/-- Line 68 of `jacobi_eigen`: `D[q][q]` recomputed from the current entries. -/
def fix_qq (c s : α) (p q : Nat) (D : Mat α) : Option (Mat α) :=
  (get2 D p p).bind fun dpp =>
  (get2 D p q).bind fun dpq =>
  (get2 D q q).bind fun dqq =>
  set2 D q q (s * s * dpp + 2 * s * c * dpq + c * c * dqq)

/-- Line 53 of `jacobi_eigen`: the rotation angle. -/
def jacobi_phi (L : Libm α) (D : Mat α) (p q : Nat) : Option α :=
  (get2 D p q).bind fun dpq =>
  (get2 D q q).bind fun dqq =>
  (get2 D p p).bind fun dpp =>
  some ((1 / 2) * L.atan2 (2 * dpq) (dqq - dpp))

/-- Lines 53-76 of `jacobi_eigen`: one rotation in the plane `(p, q)`,
applied to the working matrix `D` and accumulated into `V`. -/
def jacobi_rotate (L : Libm α) (n : Nat) (D V : Mat α) (p q : Nat) : Option (Mat α × Mat α) :=
  (jacobi_phi L D p q).bind fun phi =>
  (rotate_cols (L.cos phi) (L.sin phi) n p q D).bind fun D =>
  (rotate_rows (L.cos phi) (L.sin phi) n p q D).bind fun D =>
  (fix_pp (L.cos phi) (L.sin phi) p q D).bind fun D =>
  (fix_qq (L.cos phi) (L.sin phi) p q D).bind fun D =>
  (set2 D q p 0).bind fun D =>
  (set2 D p q 0).bind fun D =>
  (rotate_cols (L.cos phi) (L.sin phi) n p q V).bind fun V =>
  some (D, V)

/-- Loop of lines 41-77 of `jacobi_eigen`, with `iters` iterations left; the
`break` of line 51 returns the current `(D, V)`. -/
def jacobi_iter (L : Libm α) (n : Nat) (tol : α) : Nat → Mat α → Mat α → Option (Mat α × Mat α)
  | 0, D, V => some (D, V)
  | k + 1, D, V => do
    let st ← max_offdiag_scan n D
    if st.2.2 < tol then pure (D, V)
    else do
      let DV ← jacobi_rotate L n D V st.1 st.2.1
      jacobi_iter L n tol k DV.1 DV.2

/-- Function `jacobi_eigen` (lines 35-80); returns `(V, eigvals)`.  A negative
`max_iter` runs no iteration. -/
def jacobi_eigen (L : Libm α) (A : Mat α) (max_iter : Int) (tol : α) : Option (Mat α × List α) := do
  let n := A.length
  let V ← forLoop (fun i V => set2 V i i 1) 0 n (zeros n n)
  let DV ← jacobi_iter L n tol max_iter.toNat A V
  let eigvals ← forLoop (fun i e => do
    let d ← get2 DV.1 i i
    set1 e i d) 0 n (List.replicate n 0)
  pure (DV.2, eigvals)

/-- Default `tol = 1e-10` of `jacobi_eigen`, also the threshold of line 119. -/
def eps10 : α := 1 / 10 ^ 10

/-- Comparison `operator<` of `vector<double>` (`std::lexicographical_compare`). -/
def vec_lt : List α → List α → Bool
  | [], [] => false
  | [], _ :: _ => true
  | _ :: _, [] => false
  | a :: as, b :: bs => if a < b then true else if b < a then false else vec_lt as bs

/-- Comparison `operator<` of `pair<double, vector<double>>`. -/
def pair_lt (x y : α × List α) : Bool :=
  decide (x.1 < y.1) || (!decide (y.1 < x.1) && vec_lt x.2 y.2)

/-- Relation "not greater": `x` may stand before `y` in ascending order. -/
def pair_le (x y : α × List α) : Prop := pair_lt y x = false

instance pair_le_decidable : DecidableRel (pair_le : α × List α → α × List α → Prop) :=
  fun x y => inferInstanceAs (Decidable (pair_lt y x = false))

/-- Line 99, `sort(eig_pairs.rbegin(), eig_pairs.rend())`: the reversed
sequence is put in ascending `operator<` order.  The order is total on exact
scalars, so the sorted sequence does not depend on the sorting algorithm. -/
def sort_desc (ps : List (α × List α)) : List (α × List α) :=
  (List.insertionSort pair_le ps.reverse).reverse

/-- Lines 93-98 of `svd`: the pairs `(eigvals[i], column i of V)`. -/
def eig_pairs (n : Nat) (V : Mat α) (eigvals : List α) : Option (List (α × List α)) := do
  let ps ← forLoop (fun i ps => do
    let e ← get1 eigvals i
    pure (ps ++ [(e, List.replicate n 0)])) 0 n []
  forLoop (fun i ps =>
    forLoop (fun j ps => do
      let v ← get2 V j i
      let pr ← ps[i]?
      let snd ← set1 pr.2 j v
      pure (ps.set i (pr.1, snd))) 0 n ps) 0 n ps

/-- Lines 102-108 of `svd`: `V` rebuilt from the sorted pairs, and `sigma`. -/
def build_V_sigma (L : Libm α) (n : Nat) (sorted : List (α × List α)) : Option (Mat α × List α) :=
  forLoop (fun i st => do
    let pr ← sorted[i]?
    let sigma ← set1 st.2 i (L.sqrt (max pr.1 0))
    let V ← forLoop (fun j V => do
      let x ← get1 pr.2 j
      set2 V j i x) 0 n st.1
    pure (V, sigma)) 0 n (zeros n n, List.replicate n 0)

/-- Lines 84-108 of `svd`: everything up to the sorted `V` and `sigma`. -/
def svd_V_sigma (L : Libm α) (A : Mat α) : Option (Mat α × List α) := do
  let a0 ← A[0]?
  let n := a0.length
  let AT ← transpose A
  let ATA ← matmul AT A
  let Ve ← jacobi_eigen L ATA 100 eps10
  let ps ← eig_pairs n Ve.1 Ve.2
  build_V_sigma L n (sort_desc ps)

/-- Lines 111-113 of `svd`: the `m x n` matrix `S`. -/
def svd_S (m n : Nat) (sigma : List α) : Option (Mat α) :=
  forLoop (fun i S => do
    let x ← get1 sigma i
    set2 S i i x) 0 (min m n) (zeros m n)

/-- Lines 116-127 of `svd`: the `m x m` matrix `U`; column `i` is written
only when `sigma[i] > 1e-10`. -/
def svd_U (A : Mat α) (m n : Nat) (V : Mat α) (sigma : List α) : Option (Mat α) :=
  forLoop (fun i U => do
    let si ← get1 sigma i
    if si > eps10 then do
      let Av ← forLoop (fun row Av =>
        forLoop (fun col Av => do
          let acc ← get1 Av row
          let a ← get2 A row col
          let v ← get2 V col i
          set1 Av row (acc + a * v)) 0 n Av) 0 m (List.replicate m 0)
      forLoop (fun row U => do
        let x ← get1 Av row
        let si ← get1 sigma i
        set2 U row i (x / si)) 0 m U
    else pure U) 0 n (zeros m m)

/-- Function `svd` (lines 83-129); returns `(U, S, V)`. -/
def svd (L : Libm α) (A : Mat α) : Option (Mat α × Mat α × Mat α) := do
  let m := A.length
  let a0 ← A[0]?
  let n := a0.length
  let Vs ← svd_V_sigma L A
  let S ← svd_S m n Vs.2
  let U ← svd_U A m n Vs.1 Vs.2
  pure (U, S, Vs.1)

/-! ## Notions used to state the properties -/

/-- Entry `M[i][j]`, read as `0` outside the matrix. -/
def entry (M : Mat α) (i j : Nat) : α := (M.getD i []).getD j 0

/-- Left-to-right accumulation `((c0 + g 0) + g 1) + ... + g (t-1)`. -/
def accum (g : Nat → α) (c0 : α) (t : Nat) : α := (List.range t).foldl (fun s k => s + g k) c0

/-- Columns `0..n-1` of the entry function `v` are orthonormal. -/
def OrthFn (n : Nat) (v : Nat → Nat → α) : Prop :=
  ∀ i j, i < n → j < n →
    Finset.sum (Finset.range n) (fun k => v k i * v k j) = if i = j then 1 else 0

/-- Matrix `V` is `n x n` with `VᵗV = I(n)`: entry `(i, j)` of `VᵗV` is the
sum over `k` of `V[k][i] * V[k][j]`. -/
def IsOrthogonal (n : Nat) (V : Mat α) : Prop := IsRect n n V ∧ OrthFn n (entry V)

/-- The `n x n` identity matrix. -/
def identity (n : Nat) : Mat α := tab2 n n (fun i j => if i = j then 1 else 0)

/-- Modelled from the spec: the sorting rule of section 4.3 step 3, "sort
eigenpairs by eigenvalue descending; stable tie-break by original index
ascending".  Each pair is tagged with its original index, the tagged pairs are
put in that order, and the tags are dropped. -/
def stable_sort_desc (ps : List (α × List α)) : List (α × List α) :=
  (List.insertionSort
    (fun x y => y.2.1 < x.2.1 ∨ (y.2.1 = x.2.1 ∧ x.1 ≤ y.1)) ps.enum).map Prod.snd

/-- List of the first `n` columns of `M`. -/
def columns (n : Nat) (M : Mat α) : List (List α) :=
  tab n (fun c => tab n (fun r => entry M r c))

end Program

section GenericLemmas

variable {α : Type}

/-! ## Loops, vectors and matrices given by their entries -/

theorem forLoop_eq {σ : Type} (body : Nat → σ → Option σ) (F : Nat → σ) :
    ∀ (k lo : Nat), (∀ i, lo ≤ i → i < lo + k → body i (F i) = some (F (i + 1))) →
      forLoop body lo k (F lo) = some (F (lo + k)) := by
  intro k
  induction k with
  | zero => intro lo _; simp [forLoop]
  | succ k ih =>
    intro lo h
    rw [forLoop, h lo (le_refl _) (by omega), Option.some_bind, ih (lo + 1)]
    · congr 2; omega
    · intro i h1 h2
      exact h i (by omega) (by omega)

theorem forLoop_inv {σ : Type} (body : Nat → σ → Option σ) (P : Nat → σ → Prop) :
    ∀ (k lo : Nat) (s : σ), P lo s →
      (∀ i s, lo ≤ i → i < lo + k → P i s → ∃ s', body i s = some s' ∧ P (i + 1) s') →
      ∃ s', forLoop body lo k s = some s' ∧ P (lo + k) s' := by
  intro k
  induction k with
  | zero => intro lo s h0 _; exact ⟨s, by simp [forLoop], by simpa using h0⟩
  | succ k ih =>
    intro lo s h0 h
    obtain ⟨s1, hs1, hP1⟩ := h lo s (le_refl _) (by omega) h0
    obtain ⟨s2, hs2, hP2⟩ := ih (lo + 1) s1 hP1 (fun i s h1 h2 hP => h i s (by omega) (by omega) hP)
    refine ⟨s2, ?_, ?_⟩
    · rw [forLoop, hs1, Option.some_bind, hs2]
    · have : lo + (k + 1) = lo + 1 + k := by omega
      rw [this]; exact hP2

/-- A loop whose iteration `i0` fails after successful iterations fails. -/
theorem forLoop_none {σ : Type} (body : Nat → σ → Option σ) (F : Nat → σ) (i0 : Nat) :
    ∀ (k lo : Nat), lo ≤ i0 → i0 < lo + k →
      (∀ i, lo ≤ i → i < i0 → body i (F i) = some (F (i + 1))) → body i0 (F i0) = none →
      forLoop body lo k (F lo) = none := by
  intro k
  induction k with
  | zero => intro lo h1 h2; omega
  | succ k ih =>
    intro lo h1 h2 h hf
    rcases Nat.eq_or_lt_of_le h1 with h3 | h3
    · subst h3
      rw [forLoop, hf, Option.none_bind]
    · rw [forLoop, h lo (le_refl _) h3, Option.some_bind]
      exact ih (lo + 1) h3 (by omega) (fun i a b => h i (by omega) b) hf

@[simp] theorem tab_length (n : Nat) (f : Nat → α) : (tab n f).length = n := by simp [tab]

theorem getElem?_tab (n : Nat) (f : Nat → α) (i : Nat) :
    (tab n f)[i]? = if i < n then some (f i) else none := by
  unfold tab
  by_cases h : i < n
  · simp [h, List.getElem?_range]
  · simp [h]
    omega

theorem tab_congr {n : Nat} {f g : Nat → α} (h : ∀ i, i < n → f i = g i) : tab n f = tab n g := by
  unfold tab
  apply List.map_congr_left
  intro a ha
  exact h a (List.mem_range.mp ha)

theorem set_tab (n : Nat) (f : Nat → α) (i : Nat) (x : α) :
    (tab n f).set i x = tab n (fun k => if k = i then x else f k) := by
  apply List.ext_getElem?
  intro k
  rw [List.getElem?_set, getElem?_tab, getElem?_tab]
  by_cases hk : k < n <;> by_cases hik : k = i
  · subst hik; simp [hk]
  · simp [hk, hik, Ne.symm hik]
  · subst hik; simp [hk]
  · simp [hk, hik, Ne.symm hik]

theorem eq_tab (l : List α) (d : α) : l = tab l.length (fun i => l.getD i d) := by
  apply List.ext_getElem?
  intro k
  rw [getElem?_tab]
  by_cases hk : k < l.length
  · simp [hk, List.getD_eq_getElem?_getD]
  · simp [hk]
    omega

theorem replicate_eq_tab (n : Nat) (x : α) : List.replicate n x = tab n (fun _ => x) := by
  apply List.ext_getElem?
  intro k
  rw [getElem?_tab, List.getElem?_replicate]

theorem get1_tab (n : Nat) (f : Nat → α) (i : Nat) (h : i < n) : get1 (tab n f) i = some (f i) := by
  rw [get1, getElem?_tab, if_pos h]

theorem set1_tab (n : Nat) (f : Nat → α) (i : Nat) (x : α) (h : i < n) :
    set1 (tab n f) i x = some (tab n (fun k => if k = i then x else f k)) := by
  rw [set1, tab_length, if_pos h, set_tab]

theorem tab2_congr {r c : Nat} {f g : Nat → Nat → α}
    (h : ∀ i j, i < r → j < c → f i j = g i j) : tab2 r c f = tab2 r c g := by
  unfold tab2
  exact tab_congr (fun i hi => tab_congr (fun j hj => h i j hi hj))

theorem get2_tab2 (r c : Nat) (f : Nat → Nat → α) (i j : Nat) (hi : i < r) (hj : j < c) :
    get2 (tab2 r c f) i j = some (f i j) := by
  rw [get2, tab2, getElem?_tab, if_pos hi, Option.some_bind, getElem?_tab, if_pos hj]

theorem set2_tab2 (r c : Nat) (f : Nat → Nat → α) (i j : Nat) (x : α) (hi : i < r) (hj : j < c) :
    set2 (tab2 r c f) i j x = some (tab2 r c (fun a b => if a = i ∧ b = j then x else f a b)) := by
  rw [set2, tab2, getElem?_tab, if_pos hi, Option.some_bind, tab_length, if_pos hj, set_tab, set_tab]
  congr 1
  apply tab_congr
  intro a _
  by_cases ha : a = i
  · subst ha; simp
  · simp [ha]

theorem get2_tab2_none (r c : Nat) (f : Nat → Nat → α) (i j : Nat) (h : ¬ (i < r ∧ j < c)) :
    get2 (tab2 r c f) i j = none := by
  rw [get2, tab2, getElem?_tab]
  by_cases hi : i < r
  · rw [if_pos hi, Option.some_bind, getElem?_tab, if_neg (fun hj => h ⟨hi, hj⟩)]
  · rw [if_neg hi, Option.none_bind]

theorem set2_tab2_none (r c : Nat) (f : Nat → Nat → α) (i j : Nat) (x : α) (h : ¬ (i < r ∧ j < c)) :
    set2 (tab2 r c f) i j x = none := by
  rw [set2, tab2, getElem?_tab]
  by_cases hi : i < r
  · rw [if_pos hi, Option.some_bind, tab_length, if_neg (fun hj => h ⟨hi, hj⟩)]
  · rw [if_neg hi, Option.none_bind]

theorem isRect_tab2 (r c : Nat) (f : Nat → Nat → α) : IsRect r c (tab2 r c f) := by
  refine ⟨by simp [tab2], ?_⟩
  intro row hrow
  simp only [tab2, tab, List.mem_map] at hrow
  obtain ⟨i, _, rfl⟩ := hrow
  simp

end GenericLemmas

section Lemmas

variable {α : Type} [LinearOrderedField α]

theorem entry_tab2 (r c : Nat) (f : Nat → Nat → α) (i j : Nat) (hi : i < r) (hj : j < c) :
    entry (tab2 r c f) i j = f i j := by
  rw [entry, List.getD_eq_getElem?_getD, List.getD_eq_getElem?_getD, tab2, getElem?_tab, if_pos hi,
    Option.getD_some, getElem?_tab, if_pos hj, Option.getD_some]

theorem eq_tab2 {r c : Nat} {M : Mat α} (h : IsRect r c M) : M = tab2 r c (entry M) := by
  obtain ⟨h1, h2⟩ := h
  subst h1
  conv_lhs => rw [eq_tab M []]
  unfold tab2
  apply tab_congr
  intro i hi
  have hrow : (M.getD i []).length = c := by
    apply h2
    rw [List.getD_eq_getElem?_getD, List.getElem?_eq_getElem hi]
    simp
  conv_lhs => rw [eq_tab (M.getD i []) 0, hrow]
  rfl

theorem zeros_eq_tab2 (r c : Nat) : (zeros r c : Mat α) = tab2 r c (fun _ _ => 0) := by
  rw [zeros, tab2, replicate_eq_tab, replicate_eq_tab]

theorem accum_zero (g : Nat → α) (c0 : α) : accum g c0 0 = c0 := by simp [accum]

theorem accum_succ (g : Nat → α) (c0 : α) (t : Nat) : accum g c0 (t + 1) = accum g c0 t + g t := by
  simp [accum, List.range_succ, List.foldl_append]

/-! ## `matmul` and `transpose` -/

theorem matmul_inner (m n k' p : Nat) (a b G : Nat → Nat → α) (i t : Nat)
    (hi : i < m) (ht : t < k') (htp : t < p) :
    forLoop (fun j C => do
        let cij ← get2 C i j
        let aik ← get2 (tab2 m k' a) i t
        let bkj ← get2 (tab2 p n b) t j
        set2 C i j (cij + aik * bkj)) 0 n (tab2 m n G)
      = some (tab2 m n (fun i' j' => if i' = i then G i' j' + a i t * b t j' else G i' j')) := by
  have h := forLoop_eq (fun j C => do
        let cij ← get2 C i j
        let aik ← get2 (tab2 m k' a) i t
        let bkj ← get2 (tab2 p n b) t j
        set2 C i j (cij + aik * bkj))
    (fun j => tab2 m n (fun i' j' => if i' = i ∧ j' < j then G i' j' + a i t * b t j' else G i' j'))
    n 0 (by
      intro j _ hj
      have hj' : j < n := by omega
      simp only [Option.bind_eq_bind, get2_tab2 _ _ _ _ _ hi hj', get2_tab2 _ _ _ _ _ hi ht,
        get2_tab2 _ _ _ _ _ htp hj', Option.some_bind, set2_tab2 _ _ _ _ _ _ hi hj']
      congr 1
      apply tab2_congr
      intro i' j' _ _
      by_cases h1 : i' = i
      · subst h1
        rcases Nat.lt_trichotomy j' j with h | h | h
        · have h2 : j' < j + 1 := by omega
          have h3 : j' ≠ j := by omega
          simp [h, h2, h3]
        · subst h
          simp
        · have h2 : ¬ j' < j + 1 := by omega
          have h3 : j' ≠ j := by omega
          have h4 : ¬ j' < j := by omega
          simp [h2, h3, h4]
      · simp [h1])
  have h0 : tab2 m n G
      = tab2 m n (fun i' j' => if i' = i ∧ j' < 0 then G i' j' + a i t * b t j' else G i' j') :=
    tab2_congr (fun i' j' _ _ => by simp)
  rw [h0, h]
  congr 1
  apply tab2_congr
  intro i' j' _ hj'
  by_cases h1 : i' = i <;> simp [h1, hj']

theorem matmul_mid (m n k' p : Nat) (a b G : Nat → Nat → α) (i : Nat) (hi : i < m) (hp : p ≤ k') :
    forLoop (fun k C =>
      forLoop (fun j C => do
        let cij ← get2 C i j
        let aik ← get2 (tab2 m k' a) i k
        let bkj ← get2 (tab2 p n b) k j
        set2 C i j (cij + aik * bkj)) 0 n C) 0 p (tab2 m n G)
      = some (tab2 m n (fun i' j' =>
          if i' = i then accum (fun t => a i t * b t j') (G i' j') p else G i' j')) := by
  have h := forLoop_eq (fun k C =>
      forLoop (fun j C => do
        let cij ← get2 C i j
        let aik ← get2 (tab2 m k' a) i k
        let bkj ← get2 (tab2 p n b) k j
        set2 C i j (cij + aik * bkj)) 0 n C)
    (fun t => tab2 m n (fun i' j' =>
          if i' = i then accum (fun t => a i t * b t j') (G i' j') t else G i' j'))
    p 0 (by
      intro t _ ht
      have ht' : t < p := by omega
      simp only []
      rw [matmul_inner m n k' p a b _ i t hi (by omega) ht']
      congr 1
      apply tab2_congr
      intro i' j' _ _
      by_cases h1 : i' = i <;> simp [h1, accum_succ])
  have h0 : tab2 m n G = tab2 m n (fun i' j' =>
          if i' = i then accum (fun t => a i t * b t j') (G i' j') 0 else G i' j') :=
    tab2_congr (fun i' j' _ _ => by simp [accum_zero])
  rw [h0, h]
  simp

theorem matmul_tab2 (m n k' p : Nat) (a b : Nat → Nat → α) (hp0 : 0 < p) (hp : p ≤ k') :
    matmul (tab2 m k' a) (tab2 p n b)
      = some (tab2 m n (fun i j => accum (fun t => a i t * b t j) 0 p)) := by
  have hB0 : (tab2 p n b)[0]? = some (tab n (b 0)) := by
    rw [tab2, getElem?_tab, if_pos hp0]
  have hlenA : (tab2 m k' a).length = m := by simp [tab2]
  have hlenB : (tab2 p n b).length = p := by simp [tab2]
  rw [matmul]
  simp only [Option.bind_eq_bind, hB0, Option.some_bind, hlenA, hlenB, tab_length]
  have h := forLoop_eq (fun i C =>
      forLoop (fun k C =>
        forLoop (fun j C =>
          (get2 C i j).bind fun cij =>
          (get2 (tab2 m k' a) i k).bind fun aik =>
          (get2 (tab2 p n b) k j).bind fun bkj =>
          set2 C i j (cij + aik * bkj)) 0 n C) 0 p C)
    (fun i => tab2 m n (fun i' j' => if i' < i then accum (fun t => a i' t * b t j') 0 p else 0))
    m 0 (by
      intro i _ hi
      have hi' : i < m := by omega
      have := matmul_mid m n k' p a b
        (fun i' j' => if i' < i then accum (fun t => a i' t * b t j') 0 p else 0) i hi' hp
      simp only [Option.bind_eq_bind] at this
      simp only []
      rw [this]
      congr 1
      apply tab2_congr
      intro i' j' _ _
      by_cases h1 : i' = i
      · subst h1; simp
      · by_cases h2 : i' < i
        · have : i' < i + 1 := by omega
          simp [h1, h2, this]
        · have : ¬ i' < i + 1 := by omega
          simp [h1, h2, this])
  have h0 : (zeros m n : Mat α)
      = tab2 m n (fun i' j' => if i' < 0 then accum (fun t => a i' t * b t j') 0 p else 0) := by
    rw [zeros_eq_tab2]
    exact tab2_congr (fun i' j' _ _ => by simp)
  rw [h0, h]
  congr 1
  apply tab2_congr
  intro i' j' hi' _
  simp [hi']
theorem matmul_inner_none (m n k' p : Nat) (a b G : Nat → Nat → α) (i t : Nat)
    (hi : i < m) (ht : k' ≤ t) (hn : 0 < n) :
    forLoop (fun j C => do
        let cij ← get2 C i j
        let aik ← get2 (tab2 m k' a) i t
        let bkj ← get2 (tab2 p n b) t j
        set2 C i j (cij + aik * bkj)) 0 n (tab2 m n G) = none := by
  apply forLoop_none _ (fun _ => tab2 m n G) 0 n 0 (le_refl _) (by omega)
  · intro i h1 h2; omega
  · simp only [Option.bind_eq_bind, get2_tab2 _ _ _ _ _ hi hn, Option.some_bind]
    rw [get2_tab2_none _ _ _ _ _ (by omega), Option.none_bind]

theorem matmul_mid_none (m n k' p : Nat) (a b G : Nat → Nat → α) (i : Nat) (hi : i < m)
    (hp : k' < p) (hn : 0 < n) :
    forLoop (fun k C =>
      forLoop (fun j C => do
        let cij ← get2 C i j
        let aik ← get2 (tab2 m k' a) i k
        let bkj ← get2 (tab2 p n b) k j
        set2 C i j (cij + aik * bkj)) 0 n C) 0 p (tab2 m n G) = none := by
  have h := forLoop_none (fun k C =>
      forLoop (fun j C => do
        let cij ← get2 C i j
        let aik ← get2 (tab2 m k' a) i k
        let bkj ← get2 (tab2 p n b) k j
        set2 C i j (cij + aik * bkj)) 0 n C)
    (fun t => tab2 m n (fun i' j' =>
          if i' = i then accum (fun t => a i t * b t j') (G i' j') t else G i' j'))
    k' p 0 (Nat.zero_le _) (by omega) (by
      intro t _ ht
      simp only []
      rw [matmul_inner m n k' p a b _ i t hi ht (by omega)]
      congr 1
      apply tab2_congr
      intro i' j' _ _
      by_cases h1 : i' = i <;> simp [h1, accum_succ])
    (matmul_inner_none m n k' p a b _ i k' hi (le_refl _) hn)
  have h0 : tab2 m n G = tab2 m n (fun i' j' =>
          if i' = i then accum (fun t => a i t * b t j') (G i' j') 0 else G i' j') :=
    tab2_congr (fun i' j' _ _ => by simp [accum_zero])
  rw [h0, h]

theorem matmul_tab2_none (m n k' p : Nat) (a b : Nat → Nat → α) (hm : 0 < m) (hn : 0 < n)
    (hp : k' < p) : matmul (tab2 m k' a) (tab2 p n b) = none := by
  have hB0 : (tab2 p n b)[0]? = some (tab n (b 0)) := by
    rw [tab2, getElem?_tab, if_pos (by omega)]
  have hlenA : (tab2 m k' a).length = m := by simp [tab2]
  have hlenB : (tab2 p n b).length = p := by simp [tab2]
  rw [matmul]
  simp only [Option.bind_eq_bind, hB0, Option.some_bind, hlenA, hlenB, tab_length]
  apply forLoop_none _ (fun _ => zeros m n) 0 m 0 (le_refl _) (by omega)
  · intro i h1 h2; omega
  · have := matmul_mid_none m n k' p a b (fun _ _ => 0) 0 hm hp hn
    simp only [Option.bind_eq_bind] at this
    rw [zeros_eq_tab2, this]

theorem transpose_inner (m n : Nat) (a G : Nat → Nat → α) (i : Nat) (hi : i < m) :
    forLoop (fun j AT => do
        let aij ← get2 (tab2 m n a) i j
        set2 AT j i aij) 0 n (tab2 n m G)
      = some (tab2 n m (fun j' i' => if i' = i then a i' j' else G j' i')) := by
  have h := forLoop_eq (fun j AT => do
        let aij ← get2 (tab2 m n a) i j
        set2 AT j i aij)
    (fun j => tab2 n m (fun j' i' => if i' = i ∧ j' < j then a i' j' else G j' i'))
    n 0 (by
      intro j _ hj
      have hj' : j < n := by omega
      simp only [Option.bind_eq_bind, get2_tab2 _ _ _ _ _ hi hj', Option.some_bind,
        set2_tab2 _ _ _ _ _ _ hj' hi]
      congr 1
      apply tab2_congr
      intro j' i' _ _
      by_cases h1 : i' = i
      · subst h1
        rcases Nat.lt_trichotomy j' j with h | h | h
        · have h2 : j' < j + 1 := by omega
          have h3 : j' ≠ j := by omega
          simp [h, h2, h3]
        · subst h
          simp
        · have h2 : ¬ j' < j + 1 := by omega
          have h3 : j' ≠ j := by omega
          have h4 : ¬ j' < j := by omega
          simp [h2, h3, h4]
      · simp [h1])
  have h0 : tab2 n m G
      = tab2 n m (fun j' i' => if i' = i ∧ j' < 0 then a i' j' else G j' i') :=
    tab2_congr (fun i' j' _ _ => by simp)
  rw [h0, h]
  congr 1
  apply tab2_congr
  intro j' i' hj' _
  by_cases h1 : i' = i <;> simp [h1, hj']

theorem transpose_tab2 (m n : Nat) (a : Nat → Nat → α) (hm : 0 < m) :
    transpose (tab2 m n a) = some (tab2 n m (fun j i => a i j)) := by
  have hA0 : (tab2 m n a)[0]? = some (tab n (a 0)) := by
    rw [tab2, getElem?_tab, if_pos hm]
  have hlenA : (tab2 m n a).length = m := by simp [tab2]
  rw [transpose]
  simp only [Option.bind_eq_bind, hA0, Option.some_bind, hlenA, tab_length]
  have h := forLoop_eq (fun i AT =>
      forLoop (fun j AT =>
        (get2 (tab2 m n a) i j).bind fun aij => set2 AT j i aij) 0 n AT)
    (fun i => tab2 n m (fun j' i' => if i' < i then a i' j' else 0))
    m 0 (by
      intro i _ hi
      have hi' : i < m := by omega
      have := transpose_inner m n a (fun j' i' => if i' < i then a i' j' else 0) i hi'
      simp only [Option.bind_eq_bind] at this
      simp only []
      rw [this]
      congr 1
      apply tab2_congr
      intro j' i' _ _
      by_cases h1 : i' = i
      · subst h1; simp
      · by_cases h2 : i' < i
        · have : i' < i + 1 := by omega
          simp [h1, h2, this]
        · have : ¬ i' < i + 1 := by omega
          simp [h1, h2, this])
  have h0 : (zeros n m : Mat α)
      = tab2 n m (fun j' i' => if i' < 0 then a i' j' else 0) := by
    rw [zeros_eq_tab2]
    exact tab2_congr (fun i' j' _ _ => by simp)
  rw [h0, h]
  congr 1
  apply tab2_congr
  intro j' i' _ hi'
  simp [hi']
/-! ## One rotation of a `2 x 2` working matrix -/

theorem jacobi_iter_succ (L : Libm α) (n : Nat) (tol : α) (k : Nat) (D V : Mat α) :
    jacobi_iter L n tol (k + 1) D V
      = (max_offdiag_scan n D).bind fun st =>
          if st.2.2 < tol then some (D, V)
          else (jacobi_rotate L n D V st.1 st.2.1).bind fun DV => jacobi_iter L n tol k DV.1 DV.2 := by
  rw [jacobi_iter]
  rfl

theorem rotate_cols_two (c s a b d e : α) :
    rotate_cols c s 2 0 1 [[a, b], [d, e]]
      = some [[c * a - s * b, s * a + c * b], [c * d - s * e, s * d + c * e]] := by
  simp [rotate_cols, forLoop, get2, set2]

theorem rotate_rows_two (c s a b d e : α) :
    rotate_rows c s 2 0 1 [[a, b], [d, e]]
      = some [[c * a - s * d, c * b - s * e], [s * a + c * d, s * b + c * e]] := by
  simp [rotate_rows, forLoop, get2, set2]

theorem scan_two (a b d e : α) :
    max_offdiag_scan 2 [[a, b], [d, e]] = some (if |b| > 0 then (0, 1, |b|) else (0, 1, 0)) := by
  simp [max_offdiag_scan, forLoop, get2]
  split_ifs <;> simp

/-- One rotation of a `2 x 2` working matrix in terms of the cosine `c` and
sine `s` used: `a3` is the value line 67 stores in `D[0][0]` and `e3` the
value line 68 stores in `D[1][1]`, computed from the already rotated entries. -/
theorem jacobi_rotate_two (L : Libm α) (a b d e v00 v01 v10 v11 c s a3 e3 : α)
    (hc : L.cos (1 / 2 * L.atan2 (2 * b) (e - a)) = c)
    (hs : L.sin (1 / 2 * L.atan2 (2 * b) (e - a)) = s)
    (ha3 : c * c * (c * (c * a - s * b) - s * (c * d - s * e))
        - 2 * s * c * (c * (s * a + c * b) - s * (s * d + c * e))
        + s * s * (s * (s * a + c * b) + c * (s * d + c * e)) = a3)
    (he3 : s * s * a3 + 2 * s * c * (c * (s * a + c * b) - s * (s * d + c * e))
        + c * c * (s * (s * a + c * b) + c * (s * d + c * e)) = e3) :
    jacobi_rotate L 2 [[a, b], [d, e]] [[v00, v01], [v10, v11]] 0 1
      = some ([[a3, 0], [0, e3]],
              [[c * v00 - s * v01, s * v00 + c * v01], [c * v10 - s * v11, s * v10 + c * v11]]) := by
  have hphi : jacobi_phi L [[a, b], [d, e]] 0 1 = some (1 / 2 * L.atan2 (2 * b) (e - a)) := by
    simp [jacobi_phi, get2]
  rw [jacobi_rotate, hphi, Option.some_bind, hc, hs, rotate_cols_two, Option.some_bind,
    rotate_rows_two, Option.some_bind]
  subst ha3
  subst he3
  simp [fix_pp, fix_qq, get2, set2, rotate_cols_two]

theorem real_half_arg_up (y : ℝ) (hy : 0 < y) :
    (1 / 2 : ℝ) * (Complex.mk 0 y).arg = Real.pi / 4 := by
  have h : (Complex.mk 0 y).arg = Real.pi / 2 := Complex.arg_eq_pi_div_two_iff.mpr ⟨rfl, hy⟩
  rw [h]; ring

theorem real_half_arg_down (y : ℝ) (hy : y < 0) :
    (1 / 2 : ℝ) * (Complex.mk 0 y).arg = -(Real.pi / 4) := by
  have h : (Complex.mk 0 y).arg = -(Real.pi / 2) :=
    Complex.arg_eq_neg_pi_div_two_iff.mpr ⟨rfl, hy⟩
  rw [h]; ring

theorem eps10_pos : (0 : α) < eps10 := by
  unfold eps10; positivity

theorem eps10_lt_one : (eps10 : α) < 1 := by
  unfold eps10
  rw [div_lt_one (by positivity)]
  norm_num

/-- On `[[a, b], [b, a]]` with `b >= 1e-10` the solver makes one rotation by
`pi/4` and stops; the diagonal it returns is `a` and `a + b/2`. -/
theorem jacobi_eigen_sym_two (a b : ℝ) (hb : eps10 ≤ b) :
    jacobi_eigen ⟨Real.sqrt, fun y x => (Complex.mk x y).arg, Real.cos, Real.sin⟩
        [[a, b], [b, a]] 100 eps10
      = some ([[√2 / 2, √2 / 2], [-(√2 / 2), √2 / 2]], [a, a + b / 2]) := by
  have hb0 : 0 < b := lt_of_lt_of_le eps10_pos hb
  have hV : forLoop (fun i V => set2 V i i (1 : ℝ)) 0 2 (zeros 2 2) = some [[1, 0], [0, 1]] := by
    simp [forLoop, set2, zeros]
  have hr : (√2 / 2 : ℝ) * (√2 / 2) = 1 / 2 := by
    have h22 : (√2 : ℝ) * √2 = 2 := Real.mul_self_sqrt (by norm_num)
    linear_combination (1 / 4) * h22
  have hz : Complex.mk (a - a) (2 * b) = Complex.mk 0 (2 * b) := by rw [sub_self]
  have hc : Real.cos (1 / 2 * (Complex.mk (a - a) (2 * b)).arg) = √2 / 2 := by
    rw [hz, real_half_arg_up (2 * b) (by linarith), Real.cos_pi_div_four]
  have hs : Real.sin (1 / 2 * (Complex.mk (a - a) (2 * b)).arg) = √2 / 2 := by
    rw [hz, real_half_arg_up (2 * b) (by linarith), Real.sin_pi_div_four]
  have hrot := jacobi_rotate_two ⟨Real.sqrt, fun y x => (Complex.mk x y).arg, Real.cos, Real.sin⟩
    a b b a 1 0 0 1 (√2 / 2) (√2 / 2) a (a + b / 2) hc hs
    (by linear_combination (4 * a * (√2 / 2 * (√2 / 2) + 1 / 2)) * hr)
    (by linear_combination (a + (2 * a + 2 * b) * (√2 / 2 * (√2 / 2) + 1 / 2)) * hr)
  have hscan1 : max_offdiag_scan 2 [[a, b], [b, a]] = some (0, 1, b) := by
    rw [scan_two, abs_of_pos hb0, if_pos hb0]
  have hscan2 : max_offdiag_scan 2 [[a, 0], [0, a + b / 2]] = some (0, 1, 0) := by
    rw [scan_two]; simp
  have hiter : jacobi_iter ⟨Real.sqrt, fun y x => (Complex.mk x y).arg, Real.cos, Real.sin⟩ 2 eps10
      (98 + 1 + 1) [[a, b], [b, a]] [[1, 0], [0, 1]]
      = some ([[a, 0], [0, a + b / 2]], [[√2 / 2, √2 / 2], [-(√2 / 2), √2 / 2]]) := by
    rw [jacobi_iter_succ, hscan1, Option.some_bind, if_neg (not_lt.mpr hb), hrot, Option.some_bind,
      jacobi_iter_succ, hscan2, Option.some_bind, if_pos eps10_pos]
    norm_num
  rw [jacobi_eigen]
  simp only [List.length_cons, List.length_nil, Option.bind_eq_bind]
  rw [hV, Option.some_bind]
  have h100 : (100 : ℤ).toNat = 98 + 1 + 1 := by decide
  rw [h100, hiter, Option.some_bind]
  simp [forLoop, get2, set1]

/-! ## The order `operator<` on eigenpairs and the sorting step -/

theorem vec_lt_asymm : ∀ (a b : List α), vec_lt a b = true → vec_lt b a = false
  | [], [] => by simp [vec_lt]
  | [], _ :: _ => by simp [vec_lt]
  | _ :: _, [] => by simp [vec_lt]
  | x :: xs, y :: ys => by
    intro h
    rcases lt_trichotomy x y with hxy | hxy | hxy
    · simp [vec_lt, hxy, not_lt_of_lt hxy]
    · subst hxy
      simp only [vec_lt, lt_irrefl, if_false] at h ⊢
      exact vec_lt_asymm xs ys h
    · simp [vec_lt, hxy, not_lt_of_lt hxy] at h

theorem vec_lt_antisymm : ∀ (a b : List α), vec_lt a b = false → vec_lt b a = false → a = b
  | [], [] => by simp
  | [], _ :: _ => by simp [vec_lt]
  | _ :: _, [] => by simp [vec_lt]
  | x :: xs, y :: ys => by
    intro h1 h2
    rcases lt_trichotomy x y with hxy | hxy | hxy
    · simp [vec_lt, hxy] at h1
    · subst hxy
      simp only [vec_lt, lt_irrefl, if_false] at h1 h2
      rw [vec_lt_antisymm xs ys h1 h2]
    · simp [vec_lt, hxy] at h2

theorem vec_le_trans : ∀ (a b c : List α), vec_lt b a = false → vec_lt c b = false →
    vec_lt c a = false
  | [], [], [] => by simp [vec_lt]
  | [], [], _ :: _ => by simp [vec_lt]
  | [], _ :: _, [] => by simp [vec_lt]
  | [], _ :: _, _ :: _ => by simp [vec_lt]
  | _ :: _, [], [] => by simp [vec_lt]
  | _ :: _, [], _ :: _ => by simp [vec_lt]
  | _ :: _, _ :: _, [] => by simp [vec_lt]
  | x :: xs, y :: ys, z :: zs => by
    intro h1 h2
    rcases lt_trichotomy y x with hyx | hyx | hyx
    · simp [vec_lt, hyx] at h1
    · subst hyx
      rcases lt_trichotomy z y with hzy | hzy | hzy
      · simp [vec_lt, hzy] at h2
      · subst hzy
        simp only [vec_lt, lt_irrefl, if_false] at h1 h2 ⊢
        exact vec_le_trans xs ys zs h1 h2
      · simp [vec_lt, hzy, not_lt_of_lt hzy]
    · rcases lt_trichotomy z y with hzy | hzy | hzy
      · simp [vec_lt, hzy] at h2
      · subst hzy
        simp [vec_lt, hyx, not_lt_of_lt hyx]
      · have hxz : x < z := lt_trans hyx hzy
        simp [vec_lt, hxz, not_lt_of_lt hxz]

theorem pair_lt_eq_false_iff (x y : α × List α) :
    pair_lt x y = false ↔ y.1 < x.1 ∨ (y.1 = x.1 ∧ vec_lt x.2 y.2 = false) := by
  rcases lt_trichotomy x.1 y.1 with h | h | h
  · simp [pair_lt, h, not_lt_of_lt h, ne_of_gt h]
  · simp [pair_lt, h]
  · simp [pair_lt, h, not_lt_of_lt h]

theorem pair_le_iff (x y : α × List α) :
    pair_le x y ↔ x.1 < y.1 ∨ (x.1 = y.1 ∧ vec_lt y.2 x.2 = false) := by
  unfold pair_le
  exact pair_lt_eq_false_iff y x

theorem pair_le_total (x y : α × List α) : pair_le x y ∨ pair_le y x := by
  rw [pair_le_iff, pair_le_iff]
  rcases lt_trichotomy x.1 y.1 with h | h | h
  · left; left; exact h
  · by_cases hv : vec_lt x.2 y.2 = false
    · right; right; exact ⟨h.symm, hv⟩
    · left; right
      exact ⟨h, vec_lt_asymm _ _ (by simpa using hv)⟩
  · right; left; exact h

theorem pair_le_trans (x y z : α × List α) (h1 : pair_le x y) (h2 : pair_le y z) : pair_le x z := by
  rw [pair_le_iff] at *
  rcases h1 with h1 | ⟨h1, h1'⟩
  · rcases h2 with h2 | ⟨h2, _⟩
    · left; exact lt_trans h1 h2
    · left; rw [← h2]; exact h1
  · rcases h2 with h2 | ⟨h2, h2'⟩
    · left; rw [h1]; exact h2
    · right; exact ⟨h1.trans h2, vec_le_trans _ _ _ h1' h2'⟩

theorem pair_le_antisymm (x y : α × List α) (h1 : pair_le x y) (h2 : pair_le y x) : x = y := by
  rw [pair_le_iff] at *
  rcases h1 with h1 | ⟨h1, h1'⟩
  · rcases h2 with h2 | ⟨h2, _⟩
    · exact absurd h1 (not_lt_of_lt h2)
    · rw [h2] at h1; exact absurd h1 (lt_irrefl _)
  · rcases h2 with h2 | ⟨_, h2'⟩
    · rw [h1] at h2; exact absurd h2 (lt_irrefl _)
    · exact Prod.ext h1 (vec_lt_antisymm _ _ h2' h1')

theorem sort_desc_perm (ps : List (α × List α)) : (sort_desc ps).Perm ps := by
  unfold sort_desc
  exact (List.reverse_perm _).trans ((List.perm_insertionSort _ _).trans (List.reverse_perm _))

theorem sort_desc_pairwise (ps : List (α × List α)) :
    (sort_desc ps).Pairwise (fun x y => pair_lt x y = false) := by
  unfold sort_desc
  rw [List.pairwise_reverse]
  exact @List.sorted_insertionSort _ pair_le _ ⟨pair_le_total⟩ ⟨fun _ _ _ => pair_le_trans _ _ _⟩
    ps.reverse

/-- Any arrangement of the pairs in non-increasing `operator<` order is the
sequence the sorting step produces. -/
theorem sort_desc_unique (ps qs : List (α × List α)) (hp : qs.Perm ps)
    (hs : qs.Pairwise (fun x y => pair_lt x y = false)) : qs = sort_desc ps := by
  have h1 : qs.reverse.Perm (sort_desc ps).reverse :=
    (List.reverse_perm _).trans (hp.trans ((sort_desc_perm ps).symm.trans (List.reverse_perm _).symm))
  have h2 : List.Sorted pair_le qs.reverse := by
    rw [List.Sorted, List.pairwise_reverse]; exact hs
  have h3 : List.Sorted pair_le (sort_desc ps).reverse := by
    rw [List.Sorted, List.pairwise_reverse]; exact sort_desc_pairwise ps
  have := @List.eq_of_perm_of_sorted _ pair_le ⟨pair_le_antisymm⟩ _ _ h1 h2 h3
  exact List.reverse_injective this

theorem sort_desc_of_sorted (ps : List (α × List α))
    (hs : ps.Pairwise (fun x y => pair_lt x y = false)) : sort_desc ps = ps :=
  (sort_desc_unique ps ps (List.Perm.refl _) hs).symm
/-! ## The eigen-solver: bounds and orthogonality of `V` -/

theorem get2_rect {r c : Nat} {M : Mat α} (h : IsRect r c M) {i j : Nat} (hi : i < r) (hj : j < c) :
    get2 M i j = some (entry M i j) := by
  conv_lhs => rw [eq_tab2 h]
  exact get2_tab2 r c _ i j hi hj

theorem set2_rect {r c : Nat} {M : Mat α} (h : IsRect r c M) {i j : Nat} (hi : i < r) (hj : j < c)
    (x : α) : ∃ M', set2 M i j x = some M' ∧ IsRect r c M' := by
  refine ⟨_, ?_, isRect_tab2 r c (fun a b => if a = i ∧ b = j then x else entry M a b)⟩
  conv_lhs => rw [eq_tab2 h]
  exact set2_tab2 r c _ i j x hi hj

theorem rotate_cols_tab2 (c s : α) (r n p q : Nat) (v : Nat → Nat → α)
    (hp : p < n) (hq : q < n) (hpq : p ≠ q) :
    rotate_cols c s r p q (tab2 r n v)
      = some (tab2 r n (fun k i => if i = p then c * v k p - s * v k q
          else if i = q then s * v k p + c * v k q else v k i)) := by
  have h := forLoop_eq (fun i M =>
      (get2 M i p).bind fun mip =>
      (get2 M i q).bind fun miq =>
      (set2 M i p (c * mip - s * miq)).bind fun M =>
      set2 M i q (s * mip + c * miq))
    (fun i => tab2 r n (fun k j => if k < i then
        (if j = p then c * v k p - s * v k q else if j = q then s * v k p + c * v k q else v k j)
        else v k j))
    r 0 (by
      intro i _ hi
      have hi' : i < r := by omega
      simp only [get2_tab2 _ _ _ _ _ hi' hp, get2_tab2 _ _ _ _ _ hi' hq, Option.some_bind,
        set2_tab2 _ _ _ _ _ _ hi' hp, set2_tab2 _ _ _ _ _ _ hi' hq, lt_irrefl, if_false]
      congr 1
      apply tab2_congr
      intro a b _ _
      rcases Nat.lt_trichotomy a i with h | h | h
      · have h1 : a ≠ i := by omega
        have h2 : a < i + 1 := by omega
        simp [h, h1, h2]
      · subst h
        by_cases hbq : b = q
        · subst hbq; simp [Ne.symm hpq]
        · by_cases hbp : b = p
          · subst hbp; simp [hbq]
          · simp [hbq, hbp]
      · have h1 : a ≠ i := by omega
        have h2 : ¬ a < i + 1 := by omega
        have h3 : ¬ a < i := by omega
        simp [h1, h2, h3])
  rw [rotate_cols]
  have h0 : tab2 r n v = tab2 r n (fun k j => if k < 0 then
        (if j = p then c * v k p - s * v k q else if j = q then s * v k p + c * v k q else v k j)
        else v k j) := tab2_congr (fun a b _ _ => by simp)
  rw [h0, h]
  congr 1
  apply tab2_congr
  intro a b ha _
  simp [ha]

theorem rotate_cols_rect (c s : α) (n p q : Nat) (D : Mat α) (hD : IsRect n n D)
    (hp : p < n) (hq : q < n) (hpq : p ≠ q) :
    ∃ D', rotate_cols c s n p q D = some D' ∧ IsRect n n D' := by
  have h := rotate_cols_tab2 c s n n p q (entry D) hp hq hpq
  rw [← eq_tab2 hD] at h
  exact ⟨_, h, isRect_tab2 n n _⟩

theorem rotate_rows_rect (c s : α) (n p q : Nat) (D : Mat α) (hD : IsRect n n D)
    (hp : p < n) (hq : q < n) :
    ∃ D', rotate_rows c s n p q D = some D' ∧ IsRect n n D' := by
  have h := forLoop_inv (fun i D =>
      (get2 D p i).bind fun dip =>
      (get2 D q i).bind fun diq =>
      (set2 D p i (c * dip - s * diq)).bind fun D =>
      set2 D q i (s * dip + c * diq)) (fun _ D => IsRect n n D) n 0 D hD (by
      intro i M _ hi hM
      have hi' : i < n := by omega
      obtain ⟨M1, h1, r1⟩ := set2_rect hM hp hi' (c * entry M p i - s * entry M q i)
      obtain ⟨M2, h2, r2⟩ := set2_rect r1 hq hi' (s * entry M p i + c * entry M q i)
      refine ⟨M2, ?_, r2⟩
      simp only [get2_rect hM hp hi', get2_rect hM hq hi', Option.some_bind, h1, h2])
  obtain ⟨D', h1, h2⟩ := h
  exact ⟨D', h1, h2⟩

theorem fix_pp_rect (c s : α) (n p q : Nat) (D : Mat α) (hD : IsRect n n D)
    (hp : p < n) (hq : q < n) : ∃ D', fix_pp c s p q D = some D' ∧ IsRect n n D' := by
  obtain ⟨M1, h1, r1⟩ := set2_rect hD hp hp
    (c * c * entry D p p - 2 * s * c * entry D p q + s * s * entry D q q)
  refine ⟨M1, ?_, r1⟩
  simp only [fix_pp, get2_rect hD hp hp, get2_rect hD hp hq, get2_rect hD hq hq, Option.some_bind, h1]

theorem fix_qq_rect (c s : α) (n p q : Nat) (D : Mat α) (hD : IsRect n n D)
    (hp : p < n) (hq : q < n) : ∃ D', fix_qq c s p q D = some D' ∧ IsRect n n D' := by
  obtain ⟨M1, h1, r1⟩ := set2_rect hD hq hq
    (s * s * entry D p p + 2 * s * c * entry D p q + c * c * entry D q q)
  refine ⟨M1, ?_, r1⟩
  simp only [fix_qq, get2_rect hD hp hp, get2_rect hD hp hq, get2_rect hD hq hq, Option.some_bind, h1]

/-- The scan returns either the initial `(0, 1, 0)` or an in-range pivot
`p < q < n` with a positive magnitude. -/
theorem scan_spec (n : Nat) (D : Mat α) (hD : IsRect n n D) :
    ∃ st, max_offdiag_scan n D = some st ∧
      (st = (0, 1, 0) ∨ (st.1 < st.2.1 ∧ st.2.1 < n ∧ 0 < st.2.2)) := by
  have h := forLoop_inv (fun i st =>
      forLoop (fun j st => do
        let d ← get2 D i j
        if |d| > st.2.2 then pure (i, j, |d|) else pure st) (i + 1) (n - (i + 1)) st)
    (fun _ st => st = (0, 1, 0) ∨ (st.1 < st.2.1 ∧ st.2.1 < n ∧ 0 < st.2.2))
    n 0 (0, 1, 0) (Or.inl rfl) (by
      intro i st _ hi hst
      have hi' : i < n := by omega
      have h2 := forLoop_inv (fun j st => do
          let d ← get2 D i j
          if |d| > st.2.2 then pure (i, j, |d|) else pure st)
        (fun _ st => st = (0, 1, 0) ∨ (st.1 < st.2.1 ∧ st.2.1 < n ∧ 0 < st.2.2))
        (n - (i + 1)) (i + 1) st hst (by
          intro j st' hj1 hj2 hst'
          have hj : j < n := by omega
          simp only [Option.bind_eq_bind, get2_rect hD hi' hj, Option.some_bind, Option.pure_def]
          by_cases hgt : |entry D i j| > st'.2.2
          · refine ⟨_, by rw [if_pos hgt], Or.inr ⟨by simpa using hj1, hj, ?_⟩⟩
            rcases hst' with h0 | ⟨_, _, h0⟩
            · rw [h0] at hgt; exact hgt
            · exact lt_trans h0 hgt
          · exact ⟨st', by rw [if_neg hgt], hst'⟩)
      obtain ⟨s', h3, h4⟩ := h2
      exact ⟨s', h3, h4⟩)
  obtain ⟨st, h1, h2⟩ := h
  exact ⟨st, h1, h2⟩
theorem sum_bilin (n : Nat) (f1 f2 f3 g1 g2 g3 : Nat → α) (x1 x2 x3 y1 y2 y3 : α) :
    Finset.sum (Finset.range n)
        (fun k => (x1 * f1 k + x2 * f2 k + x3 * f3 k) * (y1 * g1 k + y2 * g2 k + y3 * g3 k))
      = x1 * y1 * Finset.sum (Finset.range n) (fun k => f1 k * g1 k)
        + x1 * y2 * Finset.sum (Finset.range n) (fun k => f1 k * g2 k)
        + x1 * y3 * Finset.sum (Finset.range n) (fun k => f1 k * g3 k)
        + x2 * y1 * Finset.sum (Finset.range n) (fun k => f2 k * g1 k)
        + x2 * y2 * Finset.sum (Finset.range n) (fun k => f2 k * g2 k)
        + x2 * y3 * Finset.sum (Finset.range n) (fun k => f2 k * g3 k)
        + x3 * y1 * Finset.sum (Finset.range n) (fun k => f3 k * g1 k)
        + x3 * y2 * Finset.sum (Finset.range n) (fun k => f3 k * g2 k)
        + x3 * y3 * Finset.sum (Finset.range n) (fun k => f3 k * g3 k) := by
  simp only [Finset.mul_sum, ← Finset.sum_add_distrib]
  apply Finset.sum_congr rfl
  intro k _
  ring

/-- Rotating columns `p` and `q` keeps the columns orthonormal. -/
theorem orthFn_rotate (n p q : Nat) (c s : α) (v : Nat → Nat → α) (hv : OrthFn n v)
    (hp : p < n) (hq : q < n) (hpq : p ≠ q) (hcs : c ^ 2 + s ^ 2 = 1) :
    OrthFn n (fun k i => if i = p then c * v k p - s * v k q
          else if i = q then s * v k p + c * v k q else v k i) := by
  intro i j hi hj
  have hform : ∀ (a : Nat) (k : Nat),
      (if a = p then c * v k p - s * v k q else if a = q then s * v k p + c * v k q else v k a)
        = (if a = p then c else if a = q then s else 0) * v k p
          + (if a = p then -s else if a = q then c else 0) * v k q
          + (if a = p then 0 else if a = q then 0 else 1) * v k a := by
    intro a k
    by_cases h1 : a = p
    · simp [h1]; ring
    · by_cases h2 : a = q
      · subst h2; simp [h1]
      · simp [h1, h2]
  simp only [hform]
  rw [sum_bilin, hv p p hp hp, hv p q hp hq, hv p j hp hj, hv q p hq hp, hv q q hq hq,
    hv q j hq hj, hv i p hi hp, hv i q hi hq, hv i j hi hj]
  have hqp : q ≠ p := Ne.symm hpq
  by_cases hip : i = p
  · by_cases hjp : j = p
    · subst hip; subst hjp
      simp [hpq, hqp]
      linear_combination hcs
    · by_cases hjq : j = q
      · subst hip; subst hjq
        simp [hpq, hqp]
        ring
      · subst hip
        simp [hpq, hqp, hjp, hjq, Ne.symm hjp, Ne.symm hjq]
  · by_cases hiq : i = q
    · by_cases hjp : j = p
      · subst hiq; subst hjp
        simp [hpq, hqp]
        ring
      · by_cases hjq : j = q
        · subst hiq; subst hjq
          simp [hpq, hqp]
          linear_combination hcs
        · subst hiq
          simp [hpq, hqp, hjp, hjq, Ne.symm hjp, Ne.symm hjq]
    · by_cases hjp : j = p
      · subst hjp
        simp [hpq, hqp, hip, hiq]
      · by_cases hjq : j = q
        · subst hjq
          simp [hpq, hqp, hip, hiq]
        · simp [hpq, hqp, hip, hiq, hjp, hjq]

theorem isOrthogonal_tab2 (n : Nat) (v : Nat → Nat → α) (hv : OrthFn n v) :
    IsOrthogonal n (tab2 n n v) := by
  refine ⟨isRect_tab2 n n v, ?_⟩
  intro i j hi hj
  rw [← hv i j hi hj]
  apply Finset.sum_congr rfl
  intro k hk
  have hk' : k < n := Finset.mem_range.mp hk
  rw [entry_tab2 _ _ _ _ _ hk' hi, entry_tab2 _ _ _ _ _ hk' hj]

theorem rotate_cols_orth (c s : α) (n p q : Nat) (V : Mat α) (hV : IsOrthogonal n V)
    (hp : p < n) (hq : q < n) (hpq : p ≠ q) (hcs : c ^ 2 + s ^ 2 = 1) :
    ∃ V', rotate_cols c s n p q V = some V' ∧ IsOrthogonal n V' := by
  have h := rotate_cols_tab2 c s n n p q (entry V) hp hq hpq
  rw [← eq_tab2 hV.1] at h
  exact ⟨_, h, isOrthogonal_tab2 n _ (orthFn_rotate n p q c s _ hV.2 hp hq hpq hcs)⟩

theorem jacobi_rotate_spec (L : Libm α) (hL : ∀ x, L.cos x ^ 2 + L.sin x ^ 2 = 1)
    (n p q : Nat) (D V : Mat α) (hD : IsRect n n D) (hV : IsOrthogonal n V)
    (hpq : p < q) (hq : q < n) :
    ∃ D' V', jacobi_rotate L n D V p q = some (D', V') ∧ IsRect n n D' ∧ IsOrthogonal n V' := by
  have hp : p < n := lt_trans hpq hq
  have hne : p ≠ q := Nat.ne_of_lt hpq
  have hphi : jacobi_phi L D p q
      = some (1 / 2 * L.atan2 (2 * entry D p q) (entry D q q - entry D p p)) := by
    simp only [jacobi_phi, get2_rect hD hp hq, get2_rect hD hq hq, get2_rect hD hp hp,
      Option.some_bind]
  obtain ⟨D1, h1, r1⟩ := rotate_cols_rect
    (L.cos (1 / 2 * L.atan2 (2 * entry D p q) (entry D q q - entry D p p)))
    (L.sin (1 / 2 * L.atan2 (2 * entry D p q) (entry D q q - entry D p p))) n p q D hD hp hq hne
  obtain ⟨D2, h2, r2⟩ := rotate_rows_rect
    (L.cos (1 / 2 * L.atan2 (2 * entry D p q) (entry D q q - entry D p p)))
    (L.sin (1 / 2 * L.atan2 (2 * entry D p q) (entry D q q - entry D p p))) n p q D1 r1 hp hq
  obtain ⟨D3, h3, r3⟩ := fix_pp_rect
    (L.cos (1 / 2 * L.atan2 (2 * entry D p q) (entry D q q - entry D p p)))
    (L.sin (1 / 2 * L.atan2 (2 * entry D p q) (entry D q q - entry D p p))) n p q D2 r2 hp hq
  obtain ⟨D4, h4, r4⟩ := fix_qq_rect
    (L.cos (1 / 2 * L.atan2 (2 * entry D p q) (entry D q q - entry D p p)))
    (L.sin (1 / 2 * L.atan2 (2 * entry D p q) (entry D q q - entry D p p))) n p q D3 r3 hp hq
  obtain ⟨D5, h5, r5⟩ := set2_rect r4 hq hp (0 : α)
  obtain ⟨D6, h6, r6⟩ := set2_rect r5 hp hq (0 : α)
  obtain ⟨V1, h7, r7⟩ := rotate_cols_orth
    (L.cos (1 / 2 * L.atan2 (2 * entry D p q) (entry D q q - entry D p p)))
    (L.sin (1 / 2 * L.atan2 (2 * entry D p q) (entry D q q - entry D p p))) n p q V hV hp hq hne
    (hL _)
  refine ⟨D6, V1, ?_, r6, r7⟩
  simp only [jacobi_rotate, hphi, Option.some_bind, h1, h2, h3, h4, h5, h6, h7]

theorem jacobi_iter_spec (L : Libm α) (hL : ∀ x, L.cos x ^ 2 + L.sin x ^ 2 = 1)
    (n : Nat) (tol : α) (htol : 0 < tol ∨ 2 ≤ n) :
    ∀ (k : Nat) (D V : Mat α), IsRect n n D → IsOrthogonal n V →
      ∃ D' V', jacobi_iter L n tol k D V = some (D', V') ∧ IsRect n n D' ∧ IsOrthogonal n V' := by
  intro k
  induction k with
  | zero => intro D V hD hV; exact ⟨D, V, rfl, hD, hV⟩
  | succ k ih =>
    intro D V hD hV
    obtain ⟨st, hst, hinv⟩ := scan_spec n D hD
    rw [jacobi_iter_succ, hst, Option.some_bind]
    by_cases hlt : st.2.2 < tol
    · rw [if_pos hlt]; exact ⟨D, V, rfl, hD, hV⟩
    · rw [if_neg hlt]
      have hpq : st.1 < st.2.1 ∧ st.2.1 < n := by
        rcases hinv with h0 | ⟨h1, h2, _⟩
        · rcases htol with ht | ht
          · rw [h0] at hlt; exact absurd ht hlt
          · rw [h0]; exact ⟨by norm_num, by simpa using ht⟩
        · exact ⟨h1, h2⟩
      obtain ⟨D', V', h1, h2, h3⟩ := jacobi_rotate_spec L hL n st.1 st.2.1 D V hD hV hpq.1 hpq.2
      rw [h1, Option.some_bind]
      exact ih D' V' h2 h3

theorem orthFn_identity (n : Nat) : OrthFn n (fun i j => if i = j then (1 : α) else 0) := by
  intro i j hi hj
  have : ∀ k, (if k = i then (1 : α) else 0) * (if k = j then 1 else 0)
      = if k = i then (if i = j then 1 else 0) else 0 := by
    intro k
    by_cases h1 : k = i
    · subst h1; simp
    · simp [h1]
  simp only [this]
  rw [Finset.sum_ite_eq' (Finset.range n) i]
  simp [hi]

theorem init_V_loop (n : Nat) :
    forLoop (fun i V => set2 V i i (1 : α)) 0 n (zeros n n) = some (identity n) := by
  have h := forLoop_eq (fun i V => set2 V i i (1 : α))
    (fun i => tab2 n n (fun a b => if a = b ∧ a < i then (1 : α) else 0)) n 0 (by
      intro i _ hi
      have hi' : i < n := by omega
      simp only [set2_tab2 _ _ _ _ _ _ hi' hi']
      congr 1
      apply tab2_congr
      intro a b _ _
      by_cases h1 : a = b
      · subst h1
        rcases Nat.lt_trichotomy a i with h | h | h
        · have : a < i + 1 := by omega
          have : a ≠ i := by omega
          simp [*]
        · subst h; simp
        · have : ¬ a < i + 1 := by omega
          have : ¬ a < i := by omega
          have : a ≠ i := by omega
          simp [*]
      · have : ¬ (a = i ∧ b = i) := by
          intro h; exact h1 (h.1.trans h.2.symm)
        simp [h1, this])
  have h0 : (zeros n n : Mat α) = tab2 n n (fun a b => if a = b ∧ a < 0 then (1 : α) else 0) := by
    rw [zeros_eq_tab2]
    exact tab2_congr (fun a b _ _ => by simp)
  rw [h0, h, identity]
  congr 1
  apply tab2_congr
  intro a b ha _
  simp [ha]

theorem eigvals_loop (n : Nat) (D : Mat α) (hD : IsRect n n D) :
    forLoop (fun i e => do
        let d ← get2 D i i
        set1 e i d) 0 n (List.replicate n 0) = some (tab n (fun i => entry D i i)) := by
  have h := forLoop_eq (fun i e => do
        let d ← get2 D i i
        set1 e i d)
    (fun i => tab n (fun a => if a < i then entry D a a else 0)) n 0 (by
      intro i _ hi
      have hi' : i < n := by omega
      simp only [Option.bind_eq_bind, get2_rect hD hi' hi', Option.some_bind, set1_tab _ _ _ _ hi']
      congr 1
      apply tab_congr
      intro a _
      rcases Nat.lt_trichotomy a i with h | h | h
      · have : a < i + 1 := by omega
        have : a ≠ i := by omega
        simp [*]
      · subst h; simp
      · have : ¬ a < i + 1 := by omega
        have : ¬ a < i := by omega
        have : a ≠ i := by omega
        simp [*])
  have h0 : (List.replicate n (0 : α)) = tab n (fun a => if a < 0 then entry D a a else 0) := by
    rw [replicate_eq_tab]
    exact tab_congr (fun a _ => by simp)
  rw [h0, h]
  congr 1
  apply tab_congr
  intro a ha
  simp [ha]

/-- With a positive tolerance, or at least two rows, `jacobi_eigen` performs
only in-bounds accesses and returns an orthogonal `V` and `n` eigenvalues. -/
theorem jacobi_eigen_spec (L : Libm α) (hL : ∀ x, L.cos x ^ 2 + L.sin x ^ 2 = 1)
    (n : Nat) (D : Mat α) (hD : IsRect n n D) (max_iter : Int) (tol : α)
    (htol : 0 < tol ∨ 2 ≤ n) :
    ∃ V e, jacobi_eigen L D max_iter tol = some (V, e) ∧ IsOrthogonal n V ∧ e.length = n := by
  obtain ⟨D', V', h1, h2, h3⟩ := jacobi_iter_spec L hL n tol htol max_iter.toNat D (identity n) hD
    (isOrthogonal_tab2 n _ (orthFn_identity n))
  refine ⟨V', tab n (fun i => entry D' i i), ?_, h3, tab_length _ _⟩
  rw [jacobi_eigen]
  simp only [hD.1, Option.bind_eq_bind, init_V_loop, Option.some_bind, h1]
  have := eigvals_loop n D' h2
  simp only [Option.bind_eq_bind] at this
  rw [this]
  rfl
/-! ## The assembly steps of `svd` -/

theorem tab_succ (n : Nat) (f : Nat → β) : tab (n + 1) f = tab n f ++ [f n] := by
  simp [tab, List.range_succ]

theorem eig_pairs_push (n : Nat) (e : Nat → α) :
    forLoop (fun i (ps : List (α × List α)) => do
        let x ← get1 (tab n e) i
        pure (ps ++ [(x, List.replicate n 0)])) 0 n []
      = some (tab n (fun i => (e i, tab n (fun _ => (0 : α))))) := by
  have h := forLoop_eq (fun i (ps : List (α × List α)) => do
        let x ← get1 (tab n e) i
        pure (ps ++ [(x, List.replicate n 0)]))
    (fun i => tab i (fun a => (e a, tab n (fun _ => (0 : α))))) n 0 (by
      intro i _ hi
      have hi' : i < n := by omega
      simp only [Option.bind_eq_bind, get1_tab _ _ _ hi', Option.some_bind, Option.pure_def,
        tab_succ, replicate_eq_tab])
  have h1 : forLoop (fun i (ps : List (α × List α)) => do
        let x ← get1 (tab n e) i
        pure (ps ++ [(x, List.replicate n 0)])) 0 n []
      = some (tab (0 + n) (fun a => (e a, tab n (fun _ => (0 : α))))) := h
  rw [h1, Nat.zero_add]

theorem eig_pairs_inner (n : Nat) (v W : Nat → Nat → α) (e : Nat → α) (i : Nat) (hi : i < n) :
    forLoop (fun j (ps : List (α × List α)) => do
        let x ← get2 (tab2 n n v) j i
        let pr ← ps[i]?
        let snd ← set1 pr.2 j x
        pure (ps.set i (pr.1, snd))) 0 n (tab n (fun a => (e a, tab n (W a))))
      = some (tab n (fun a => (e a, tab n (fun b => if a = i then v b a else W a b)))) := by
  have h := forLoop_eq (fun j (ps : List (α × List α)) => do
        let x ← get2 (tab2 n n v) j i
        let pr ← ps[i]?
        let snd ← set1 pr.2 j x
        pure (ps.set i (pr.1, snd)))
    (fun j => tab n (fun a => (e a, tab n (fun b => if a = i ∧ b < j then v b a else W a b))))
    n 0 (by
      intro j _ hj
      have hj' : j < n := by omega
      simp only [Option.bind_eq_bind, get2_tab2 _ _ _ _ _ hj' hi, Option.some_bind,
        getElem?_tab, if_pos hi, set1_tab _ _ _ _ hj', Option.pure_def, set_tab]
      congr 1
      apply tab_congr
      intro a _
      by_cases h1 : a = i
      · subst h1
        simp only [if_true, true_and]
        congr 1
        apply tab_congr
        intro b _
        rcases Nat.lt_trichotomy b j with h | h | h
        · have : b < j + 1 := by omega
          have : b ≠ j := by omega
          simp [*]
        · subst h; simp
        · have : ¬ b < j + 1 := by omega
          have : ¬ b < j := by omega
          have : b ≠ j := by omega
          simp [*]
      · simp [h1])
  have h0 : tab n (fun a => (e a, tab n (W a)))
      = tab n (fun a => (e a, tab n (fun b => if a = i ∧ b < 0 then v b a else W a b))) :=
    tab_congr (fun a _ => by simp)
  rw [h0, h]
  congr 1
  apply tab_congr
  intro a _
  congr 1
  apply tab_congr
  intro b hb
  simp [hb]

theorem eig_pairs_tab (n : Nat) (v : Nat → Nat → α) (e : Nat → α) :
    eig_pairs n (tab2 n n v) (tab n e)
      = some (tab n (fun i => (e i, tab n (fun j => v j i)))) := by
  rw [eig_pairs]
  have hpush := eig_pairs_push n e
  simp only [Option.bind_eq_bind] at hpush ⊢
  rw [hpush, Option.some_bind]
  have h := forLoop_eq (fun i (ps : List (α × List α)) =>
      forLoop (fun j (ps : List (α × List α)) =>
        (get2 (tab2 n n v) j i).bind fun x =>
        (ps[i]?).bind fun pr =>
        (set1 pr.2 j x).bind fun snd =>
        pure (ps.set i (pr.1, snd))) 0 n ps)
    (fun i => tab n (fun a => (e a, tab n (fun b => if a < i then v b a else 0)))) n 0 (by
      intro i _ hi
      have hi' : i < n := by omega
      have := eig_pairs_inner n v (fun a b => if a < i then v b a else 0) e i hi'
      simp only [Option.bind_eq_bind] at this
      simp only []
      rw [this]
      congr 1
      apply tab_congr
      intro a _
      congr 1
      apply tab_congr
      intro b _
      rcases Nat.lt_trichotomy a i with h | h | h
      · have : a < i + 1 := by omega
        have : a ≠ i := by omega
        simp [*]
      · subst h; simp
      · have : ¬ a < i + 1 := by omega
        have : ¬ a < i := by omega
        have : a ≠ i := by omega
        simp [*])
  have h0 : tab n (fun i => (e i, tab n (fun _ => (0 : α))))
      = tab n (fun a => (e a, tab n (fun b => if a < 0 then v b a else 0))) :=
    tab_congr (fun a _ => by simp)
  rw [h0, h]
  congr 1
  apply tab_congr
  intro a ha
  simp [ha]
theorem build_V_inner (n : Nat) (w : Nat → α) (X : Nat → Nat → α) (i : Nat) (hi : i < n) :
    forLoop (fun j V => do
        let x ← get1 (tab n w) j
        set2 V j i x) 0 n (tab2 n n X)
      = some (tab2 n n (fun a b => if b = i then w a else X a b)) := by
  have h := forLoop_eq (fun j V => do
        let x ← get1 (tab n w) j
        set2 V j i x)
    (fun j => tab2 n n (fun a b => if b = i ∧ a < j then w a else X a b)) n 0 (by
      intro j _ hj
      have hj' : j < n := by omega
      simp only [Option.bind_eq_bind, get1_tab _ _ _ hj', Option.some_bind,
        set2_tab2 _ _ _ _ _ _ hj' hi]
      congr 1
      apply tab2_congr
      intro a b _ _
      by_cases h1 : b = i
      · subst h1
        rcases Nat.lt_trichotomy a j with h | h | h
        · have : a < j + 1 := by omega
          have : a ≠ j := by omega
          simp [*]
        · subst h; simp
        · have : ¬ a < j + 1 := by omega
          have : ¬ a < j := by omega
          have : a ≠ j := by omega
          simp [*]
      · simp [h1])
  have h0 : tab2 n n X = tab2 n n (fun a b => if b = i ∧ a < 0 then w a else X a b) :=
    tab2_congr (fun a b _ _ => by simp)
  rw [h0, h]
  congr 1
  apply tab2_congr
  intro a b ha _
  simp [ha]

theorem build_V_sigma_tab (L : Libm α) (n : Nat) (lam : Nat → α) (w : Nat → Nat → α) :
    build_V_sigma L n (tab n (fun i => (lam i, tab n (w i))))
      = some (tab2 n n (fun a b => w b a), tab n (fun i => L.sqrt (max (lam i) 0))) := by
  rw [build_V_sigma]
  have h := forLoop_eq (fun i (st : Mat α × List α) =>
      ((tab n (fun i => (lam i, tab n (w i))))[i]?).bind fun pr =>
      (set1 st.2 i (L.sqrt (max pr.1 0))).bind fun sigma =>
      (forLoop (fun j V =>
        (get1 pr.2 j).bind fun x => set2 V j i x) 0 n st.1).bind fun V =>
      pure (V, sigma))
    (fun i => (tab2 n n (fun a b => if b < i then w b a else 0),
      tab n (fun a => if a < i then L.sqrt (max (lam a) 0) else 0))) n 0 (by
      intro i _ hi
      have hi' : i < n := by omega
      have hin := build_V_inner n (w i) (fun a b => if b < i then w b a else 0) i hi'
      simp only [Option.bind_eq_bind] at hin
      simp only [getElem?_tab, if_pos hi', Option.some_bind, set1_tab _ _ _ _ hi', hin,
        Option.pure_def]
      congr 2
      · apply tab2_congr
        intro a b _ _
        rcases Nat.lt_trichotomy b i with h | h | h
        · have : b < i + 1 := by omega
          have : b ≠ i := by omega
          simp [*]
        · subst h; simp
        · have : ¬ b < i + 1 := by omega
          have : ¬ b < i := by omega
          have : b ≠ i := by omega
          simp [*]
      · apply tab_congr
        intro a _
        rcases Nat.lt_trichotomy a i with h | h | h
        · have : a < i + 1 := by omega
          have : a ≠ i := by omega
          simp [*]
        · subst h; simp
        · have : ¬ a < i + 1 := by omega
          have : ¬ a < i := by omega
          have : a ≠ i := by omega
          simp [*])
  have h0 : ((zeros n n : Mat α), List.replicate n (0 : α))
      = (tab2 n n (fun a b => if b < 0 then w b a else 0),
          tab n (fun a => if a < 0 then L.sqrt (max (lam a) 0) else 0)) := by
    rw [zeros_eq_tab2, replicate_eq_tab]
    exact Prod.ext (tab2_congr (fun a b _ _ => by simp)) (tab_congr (fun a _ => by simp))
  simp only [Option.bind_eq_bind]
  rw [h0, h]
  refine congrArg some (Prod.ext (tab2_congr ?_) (tab_congr ?_))
  · intro a b _ hb
    simp [hb]
  · intro a ha
    simp [ha]

theorem svd_S_tab (m n : Nat) (sg : Nat → α) :
    svd_S m n (tab n sg) = some (tab2 m n (fun a b => if a = b then sg a else 0)) := by
  rw [svd_S]
  have h := forLoop_eq (fun i S =>
      (get1 (tab n sg) i).bind fun x => set2 S i i x)
    (fun i => tab2 m n (fun a b => if a = b ∧ a < i then sg a else 0)) (min m n) 0 (by
      intro i _ hi
      have him : i < m := by omega
      have hin : i < n := by omega
      simp only [get1_tab _ _ _ hin, Option.some_bind, set2_tab2 _ _ _ _ _ _ him hin]
      congr 1
      apply tab2_congr
      intro a b _ _
      by_cases h1 : a = b
      · subst h1
        rcases Nat.lt_trichotomy a i with h | h | h
        · have : a < i + 1 := by omega
          have : a ≠ i := by omega
          simp [*]
        · subst h; simp
        · have : ¬ a < i + 1 := by omega
          have : ¬ a < i := by omega
          have : a ≠ i := by omega
          simp [*]
      · have : ¬ (a = i ∧ b = i) := by
          intro h; exact h1 (h.1.trans h.2.symm)
        simp [h1, this])
  have h0 : (zeros m n : Mat α) = tab2 m n (fun a b => if a = b ∧ a < 0 then sg a else 0) := by
    rw [zeros_eq_tab2]
    exact tab2_congr (fun a b _ _ => by simp)
  simp only [Option.bind_eq_bind]
  rw [h0, h]
  congr 1
  apply tab2_congr
  intro a b ha hb
  by_cases h1 : a = b
  · subst h1
    have : a < min m n := by omega
    simp [this]
  · simp [h1]
theorem svd_U_col (m n : Nat) (a v : Nat → Nat → α) (f : Nat → α) (i row : Nat)
    (hi : i < n) (hrow : row < m) :
    forLoop (fun col Av => do
        let acc ← get1 Av row
        let x ← get2 (tab2 m n a) row col
        let y ← get2 (tab2 n n v) col i
        set1 Av row (acc + x * y)) 0 n (tab m f)
      = some (tab m (fun r => if r = row then accum (fun col => a row col * v col i) (f r) n
          else f r)) := by
  have h := forLoop_eq (fun col Av => do
        let acc ← get1 Av row
        let x ← get2 (tab2 m n a) row col
        let y ← get2 (tab2 n n v) col i
        set1 Av row (acc + x * y))
    (fun col => tab m (fun r => if r = row then accum (fun col => a row col * v col i) (f r) col
          else f r)) n 0 (by
      intro col _ hcol
      have hcol' : col < n := by omega
      simp only [Option.bind_eq_bind, get1_tab _ _ _ hrow, get2_tab2 _ _ _ _ _ hrow hcol',
        get2_tab2 _ _ _ _ _ hcol' hi, Option.some_bind, set1_tab _ _ _ _ hrow]
      congr 1
      apply tab_congr
      intro r _
      by_cases h1 : r = row
      · subst h1; simp [accum_succ]
      · simp [h1])
  have h0 : tab m f = tab m (fun r => if r = row
      then accum (fun col => a row col * v col i) (f r) 0 else f r) :=
    tab_congr (fun r _ => by simp [accum_zero])
  rw [h0, h]
  simp

theorem svd_U_Av (m n : Nat) (a v : Nat → Nat → α) (i : Nat) (hi : i < n) :
    forLoop (fun row Av =>
      forLoop (fun col Av => do
        let acc ← get1 Av row
        let x ← get2 (tab2 m n a) row col
        let y ← get2 (tab2 n n v) col i
        set1 Av row (acc + x * y)) 0 n Av) 0 m (List.replicate m 0)
      = some (tab m (fun r => accum (fun col => a r col * v col i) 0 n)) := by
  have h := forLoop_eq (fun row Av =>
      forLoop (fun col Av => do
        let acc ← get1 Av row
        let x ← get2 (tab2 m n a) row col
        let y ← get2 (tab2 n n v) col i
        set1 Av row (acc + x * y)) 0 n Av)
    (fun row => tab m (fun r => if r < row then accum (fun col => a r col * v col i) 0 n else 0))
    m 0 (by
      intro row _ hrow
      have hrow' : row < m := by omega
      simp only []
      rw [svd_U_col m n a v _ i row hi hrow']
      congr 1
      apply tab_congr
      intro r _
      rcases Nat.lt_trichotomy r row with h | h | h
      · have : r < row + 1 := by omega
        have : r ≠ row := by omega
        simp [*]
      · subst h; simp
      · have : ¬ r < row + 1 := by omega
        have : ¬ r < row := by omega
        have : r ≠ row := by omega
        simp [*])
  have h0 : List.replicate m (0 : α)
      = tab m (fun r => if r < 0 then accum (fun col => a r col * v col i) 0 n else 0) := by
    rw [replicate_eq_tab]
    exact tab_congr (fun r _ => by simp)
  rw [h0, h]
  congr 1
  apply tab_congr
  intro r hr
  simp [hr]

theorem svd_U_write (m n : Nat) (av sg : Nat → α) (X : Nat → Nat → α) (i : Nat)
    (hi : i < n) (him : i < m) :
    forLoop (fun row U => do
        let x ← get1 (tab m av) row
        let si ← get1 (tab n sg) i
        set2 U row i (x / si)) 0 m (tab2 m m X)
      = some (tab2 m m (fun r c => if c = i then av r / sg i else X r c)) := by
  have h := forLoop_eq (fun row U => do
        let x ← get1 (tab m av) row
        let si ← get1 (tab n sg) i
        set2 U row i (x / si))
    (fun row => tab2 m m (fun r c => if c = i ∧ r < row then av r / sg i else X r c)) m 0 (by
      intro row _ hrow
      have hrow' : row < m := by omega
      simp only [Option.bind_eq_bind, get1_tab _ _ _ hrow', get1_tab _ _ _ hi, Option.some_bind,
        set2_tab2 _ _ _ _ _ _ hrow' him]
      congr 1
      apply tab2_congr
      intro r c _ _
      by_cases h1 : c = i
      · subst h1
        rcases Nat.lt_trichotomy r row with h | h | h
        · have : r < row + 1 := by omega
          have : r ≠ row := by omega
          simp [*]
        · subst h; simp
        · have : ¬ r < row + 1 := by omega
          have : ¬ r < row := by omega
          have : r ≠ row := by omega
          simp [*]
      · simp [h1])
  have h0 : tab2 m m X = tab2 m m (fun r c => if c = i ∧ r < 0 then av r / sg i else X r c) :=
    tab2_congr (fun r c _ _ => by simp)
  rw [h0, h]
  congr 1
  apply tab2_congr
  intro r c hr _
  simp [hr]

/-- The write of column `i` of `U` is out of bounds when `i >= m` (and `m >= 1`). -/
theorem svd_U_write_none (m n : Nat) (av sg : Nat → α) (X : Nat → Nat → α) (i : Nat)
    (hi : i < n) (him : m ≤ i) (hm : 0 < m) :
    forLoop (fun row U => do
        let x ← get1 (tab m av) row
        let si ← get1 (tab n sg) i
        set2 U row i (x / si)) 0 m (tab2 m m X) = none := by
  apply forLoop_none _ (fun _ => tab2 m m X) 0 m 0 (le_refl _) (by omega)
  · intro j h1 h2; omega
  · simp only [Option.bind_eq_bind, get1_tab _ _ _ hm, get1_tab _ _ _ hi, Option.some_bind]
    exact set2_tab2_none _ _ _ _ _ _ (by omega)

theorem svd_U_tab (m n : Nat) (a v : Nat → Nat → α) (sg : Nat → α) (hnm : n ≤ m) :
    svd_U (tab2 m n a) m n (tab2 n n v) (tab n sg)
      = some (tab2 m m (fun r c => if c < n ∧ sg c > eps10
          then accum (fun col => a r col * v col c) 0 n / sg c else 0)) := by
  rw [svd_U]
  have h := forLoop_eq (fun i U =>
      (get1 (tab n sg) i).bind fun si =>
      if si > eps10 then
        (forLoop (fun row Av =>
          forLoop (fun col Av =>
            (get1 Av row).bind fun acc =>
            (get2 (tab2 m n a) row col).bind fun x =>
            (get2 (tab2 n n v) col i).bind fun y =>
            set1 Av row (acc + x * y)) 0 n Av) 0 m (List.replicate m 0)).bind fun Av =>
        forLoop (fun row U =>
          (get1 Av row).bind fun x =>
          (get1 (tab n sg) i).bind fun si =>
          set2 U row i (x / si)) 0 m U
      else pure U)
    (fun i => tab2 m m (fun r c => if c < i ∧ sg c > eps10
          then accum (fun col => a r col * v col c) 0 n / sg c else 0)) n 0 (by
      intro i _ hi
      have hi' : i < n := by omega
      have hAv := svd_U_Av m n a v i hi'
      simp only [Option.bind_eq_bind] at hAv
      simp only [get1_tab _ _ _ hi', Option.some_bind]
      by_cases hs : sg i > eps10
      · rw [if_pos hs, hAv, Option.some_bind]
        have hw := svd_U_write m n (fun r => accum (fun col => a r col * v col i) 0 n) sg
          (fun r c => if c < i ∧ sg c > eps10
            then accum (fun col => a r col * v col c) 0 n / sg c else 0) i hi' (by omega)
        simp only [Option.bind_eq_bind, get1_tab _ _ _ hi', Option.some_bind] at hw
        rw [hw]
        congr 1
        apply tab2_congr
        intro r c _ _
        rcases Nat.lt_trichotomy c i with h | h | h
        · have : c < i + 1 := by omega
          have : c ≠ i := by omega
          simp [*]
        · subst h; simp [hs]
        · have : ¬ c < i + 1 := by omega
          have : ¬ c < i := by omega
          have : c ≠ i := by omega
          simp [*]
      · rw [if_neg hs, Option.pure_def]
        congr 1
        apply tab2_congr
        intro r c _ _
        rcases Nat.lt_trichotomy c i with h | h | h
        · have : c < i + 1 := by omega
          simp [*]
        · subst h; simp [hs]
        · have : ¬ c < i + 1 := by omega
          have : ¬ c < i := by omega
          simp [*])
  have h0 : (zeros m m : Mat α) = tab2 m m (fun r c => if c < 0 ∧ sg c > eps10
          then accum (fun col => a r col * v col c) 0 n / sg c else 0) := by
    rw [zeros_eq_tab2]
    exact tab2_congr (fun r c _ _ => by simp)
  simp only [Option.bind_eq_bind]
  rw [h0, h]
  simp
theorem getElem_tab (n : Nat) (f : Nat → β) (i : Nat) (h : i < (tab n f).length) :
    (tab n f)[i] = f i := by
  simp [tab]

theorem getD_tab (n : Nat) (f : Nat → β) (i : Nat) (d : β) (h : i < n) :
    (tab n f).getD i d = f i := by
  rw [List.getD_eq_getElem?_getD, getElem?_tab, if_pos h, Option.getD_some]

theorem pairs_as_tab (n : Nat) (ps : List (α × List α)) (hlen : ps.length = n)
    (hvec : ∀ x ∈ ps, x.2.length = n) :
    ps = tab n (fun i => ((ps.getD i (0, [])).1,
      tab n (fun j => (ps.getD i (0, [])).2.getD j 0))) := by
  conv_lhs => rw [eq_tab ps (0, []), hlen]
  apply tab_congr
  intro i hi
  have hmem : ps.getD i (0, []) ∈ ps := by
    rw [List.getD_eq_getElem?_getD, List.getElem?_eq_getElem (by omega)]
    simp
  have := eq_tab (ps.getD i (0, [])).2 0
  rw [hvec _ hmem] at this
  exact Prod.ext rfl this

/-- Orthonormal columns stay orthonormal when the list of columns is permuted. -/
theorem orthFn_of_perm (n : Nat) (v w : Nat → Nat → α) (e lam : Nat → α) (hv : OrthFn n v)
    (hperm : (tab n (fun i => (lam i, tab n (w i)))).Perm
      (tab n (fun i => (e i, tab n (fun j => v j i))))) :
    OrthFn n (fun r c => w c r) := by
  have hsym : ∀ {x y : α × List α},
      Finset.sum (Finset.range n) (fun k => x.2.getD k 0 * y.2.getD k 0) = 0 →
      Finset.sum (Finset.range n) (fun k => y.2.getD k 0 * x.2.getD k 0) = 0 := by
    intro x y h
    rw [show (fun k => y.2.getD k 0 * x.2.getD k 0) = (fun k => x.2.getD k 0 * y.2.getD k 0)
      from funext (fun k => mul_comm _ _)]
    exact h
  have hdot : ∀ (f g : Nat → α),
      Finset.sum (Finset.range n) (fun k => (tab n f).getD k 0 * (tab n g).getD k 0)
        = Finset.sum (Finset.range n) (fun k => f k * g k) := by
    intro f g
    apply Finset.sum_congr rfl
    intro k hk
    have hk' : k < n := Finset.mem_range.mp hk
    rw [getD_tab _ _ _ _ hk', getD_tab _ _ _ _ hk']
  have hpw0 : (tab n (fun i => (e i, tab n (fun j => v j i)))).Pairwise
      (fun x y => Finset.sum (Finset.range n) (fun k => x.2.getD k 0 * y.2.getD k 0) = 0) := by
    rw [List.pairwise_iff_getElem]
    intro i j hi hj hij
    rw [getElem_tab, getElem_tab]
    simp only [tab_length] at hi hj
    rw [hdot, hv i j hi hj, if_neg (by omega)]
  have hn0 : ∀ x ∈ tab n (fun i => (e i, tab n (fun j => v j i))),
      Finset.sum (Finset.range n) (fun k => x.2.getD k 0 * x.2.getD k 0) = 1 := by
    intro x hx
    simp only [tab, List.mem_map, List.mem_range] at hx
    obtain ⟨i, hi, rfl⟩ := hx
    have := hdot (fun j => v j i) (fun j => v j i)
    simp only [tab] at this
    rw [this, hv i i hi hi, if_pos rfl]
  have hpw1 := (hperm.pairwise_iff hsym).mpr hpw0
  rw [List.pairwise_iff_getElem] at hpw1
  intro i j hi hj
  rcases Nat.lt_trichotomy i j with h | h | h
  · have := hpw1 i j (by simpa using hi) (by simpa using hj) h
    rw [getElem_tab, getElem_tab, hdot] at this
    rw [if_neg (by omega)]
    exact this
  · subst h
    have hmem : (lam i, tab n (w i)) ∈ tab n (fun i => (lam i, tab n (w i))) := by
      simp only [tab, List.mem_map, List.mem_range]
      exact ⟨i, hi, rfl⟩
    have := hn0 _ (hperm.mem_iff.mp hmem)
    rw [hdot] at this
    rw [if_pos rfl]
    exact this
  · have := hpw1 j i (by simpa using hj) (by simpa using hi) h
    rw [getElem_tab, getElem_tab, hdot] at this
    rw [if_neg (by omega), show (fun k => w i k * w j k) = (fun k => w j k * w i k)
      from funext (fun k => mul_comm _ _)]
    exact this

/-- After the sorting step the eigenvalues are non-increasing along the sequence. -/
theorem sorted_firsts (n : Nat) (lam : Nat → α) (w : Nat → Nat → α) (ps : List (α × List α))
    (h : sort_desc ps = tab n (fun i => (lam i, tab n (w i)))) :
    ∀ i j, i < j → j < n → lam j ≤ lam i := by
  intro i j hij hj
  have hpw := sort_desc_pairwise ps
  rw [h, List.pairwise_iff_getElem] at hpw
  have := hpw i j (by simp; omega) (by simpa using hj) hij
  rw [getElem_tab, getElem_tab, pair_lt_eq_false_iff] at this
  rcases this with h1 | ⟨h1, _⟩
  · exact le_of_lt h1
  · exact le_of_eq h1

/-- Lines 84-108 of `svd` on an `m x n` input with `m >= 1`: the eigen-solver
runs on `AᵗA` and returns an orthogonal `Vj` with `n` eigenvalues; the sorted
pairs are a permutation of its eigenpairs; `V` has the sorted eigenvectors as
columns and `sigma[i]` is `sqrt(max(eigenvalue_i, 0))`. -/
theorem svd_V_sigma_tab (L : Libm α) (hL : ∀ x, L.cos x ^ 2 + L.sin x ^ 2 = 1)
    (m n : Nat) (a : Nat → Nat → α) (hm : 0 < m) :
    ∃ (Vj : Mat α) (e : List α) (lam : Nat → α) (w : Nat → Nat → α),
      jacobi_eigen L (tab2 n n (fun i j => accum (fun t => a t i * a t j) 0 m)) 100 eps10
        = some (Vj, e) ∧
      IsOrthogonal n Vj ∧ e.length = n ∧
      sort_desc (tab n (fun i => (e.getD i 0, tab n (fun j => entry Vj j i))))
        = tab n (fun i => (lam i, tab n (w i))) ∧
      svd_V_sigma L (tab2 m n a)
        = some (tab2 n n (fun r c => w c r), tab n (fun i => L.sqrt (max (lam i) 0))) := by
  have heps : (0 : α) < eps10 := by
    unfold eps10; positivity
  obtain ⟨Vj, e, hj, horth, hlen⟩ := jacobi_eigen_spec L hL n
    (tab2 n n (fun i j => accum (fun t => a t i * a t j) 0 m)) (isRect_tab2 _ _ _) 100 eps10
    (Or.inl heps)
  have hperm := sort_desc_perm (tab n (fun i => (e.getD i 0, tab n (fun j => entry Vj j i))))
  have hslen : (sort_desc (tab n (fun i => (e.getD i 0, tab n (fun j => entry Vj j i))))).length
      = n := by
    rw [hperm.length_eq, tab_length]
  have hsvec : ∀ x ∈ sort_desc (tab n (fun i => (e.getD i 0, tab n (fun j => entry Vj j i)))),
      x.2.length = n := by
    intro x hx
    have hx' := hperm.mem_iff.mp hx
    simp only [tab, List.mem_map, List.mem_range] at hx'
    obtain ⟨i, _, rfl⟩ := hx'
    simp
  have hs := pairs_as_tab n _ hslen hsvec
  refine ⟨Vj, e, _, _, hj, horth, hlen, hs, ?_⟩
  have hA0 : (tab2 m n a)[0]? = some (tab n (a 0)) := by
    rw [tab2, getElem?_tab, if_pos hm]
  have hpairs : eig_pairs n Vj e
      = some (tab n (fun i => (e.getD i 0, tab n (fun j => entry Vj j i)))) := by
    have := eig_pairs_tab n (entry Vj) (fun i => e.getD i 0)
    rw [← eq_tab2 horth.1] at this
    have he : e = tab n (fun i => e.getD i 0) := by
      conv_lhs => rw [eq_tab e 0, hlen]
    rw [← he] at this
    exact this
  rw [svd_V_sigma]
  simp only [Option.bind_eq_bind, hA0, Option.some_bind, tab_length, transpose_tab2 m n a hm,
    matmul_tab2 n n m m (fun j i => a i j) a hm (le_refl _), hj, hpairs]
  conv_lhs => rw [hs]
  exact build_V_sigma_tab L n _ _
/-! ## Structure of the result of `svd` -/

theorem svd_eq_bind (L : Libm α) (m n : Nat) (A : Mat α) (hA : IsRect m n A) (hm : 0 < m)
    (V : Mat α) (sigma : List α) (S : Mat α)
    (h1 : svd_V_sigma L A = some (V, sigma)) (h2 : svd_S m n sigma = some S) :
    svd L A = (svd_U A m n V sigma).bind (fun U => some (U, S, V)) := by
  have hA' := eq_tab2 hA
  have hA0 : A[0]? = some (tab n (entry A 0)) := by
    conv_lhs => rw [hA']
    rw [tab2, getElem?_tab, if_pos hm]
  rw [svd]
  simp only [Option.bind_eq_bind, hA0, Option.some_bind, tab_length, h1, hA.1, h2]
  rfl

/-- Shape and content of everything `svd` computes before `U`, and of `U`
when `n <= m`. -/
theorem svd_structure (L : Libm α) (hL : ∀ x, L.cos x ^ 2 + L.sin x ^ 2 = 1)
    (m n : Nat) (A : Mat α) (hA : IsRect m n A) (hm : 0 < m) :
    ∃ (Vj : Mat α) (e : List α) (lam : Nat → α) (w : Nat → Nat → α),
      jacobi_eigen L (tab2 n n (fun i j => accum (fun t => entry A t i * entry A t j) 0 m))
        100 eps10 = some (Vj, e) ∧
      IsOrthogonal n Vj ∧ e.length = n ∧
      sort_desc (tab n (fun i => (e.getD i 0, tab n (fun j => entry Vj j i))))
        = tab n (fun i => (lam i, tab n (w i))) ∧
      OrthFn n (fun r c => w c r) ∧
      (∀ i j, i < j → j < n → lam j ≤ lam i) ∧
      svd_V_sigma L A
        = some (tab2 n n (fun r c => w c r), tab n (fun i => L.sqrt (max (lam i) 0))) ∧
      svd_S m n (tab n (fun i => L.sqrt (max (lam i) 0)))
        = some (tab2 m n (fun a b => if a = b then L.sqrt (max (lam a) 0) else 0)) ∧
      svd L A = (svd_U A m n (tab2 n n (fun r c => w c r))
          (tab n (fun i => L.sqrt (max (lam i) 0)))).bind
        (fun U => some (U, tab2 m n (fun a b => if a = b then L.sqrt (max (lam a) 0) else 0),
          tab2 n n (fun r c => w c r))) ∧
      (n ≤ m → ∃ U, svd_U A m n (tab2 n n (fun r c => w c r))
          (tab n (fun i => L.sqrt (max (lam i) 0))) = some U ∧ IsRect m m U) := by
  obtain ⟨Vj, e, lam, w, h1, h2, h3, h4, h5⟩ := svd_V_sigma_tab L hL m n (entry A) hm
  rw [← eq_tab2 hA] at h5
  have h6 := svd_S_tab m n (fun i => L.sqrt (max (lam i) 0))
  refine ⟨Vj, e, lam, w, h1, h2, h3, h4, ?_, sorted_firsts n lam w _ h4, h5, h6,
    svd_eq_bind L m n A hA hm _ _ _ h5 h6, ?_⟩
  · apply orthFn_of_perm n (entry Vj) w (fun i => e.getD i 0) lam h2.2
    rw [← h4]
    exact sort_desc_perm _
  · intro hnm
    have := svd_U_tab m n (entry A) (fun r c => w c r) (fun i => L.sqrt (max (lam i) 0)) hnm
    rw [← eq_tab2 hA] at this
    exact ⟨_, this, isRect_tab2 _ _ _⟩

theorem bind_some_eq {β γ : Type} (o : Option β) (f : β → γ) (y : γ)
    (h : o.bind (fun x => some (f x)) = some y) : ∃ x, o = some x ∧ f x = y := by
  cases o with
  | none => simp at h
  | some x => exact ⟨x, rfl, by simpa using h⟩

/-! ## `svd` on the identity matrix -/

theorem tab_cons (n : Nat) (f : Nat → β) : tab (n + 1) f = f 0 :: tab n (fun k => f (k + 1)) := by
  simp [tab, List.range_succ_eq_map, List.map_map, Function.comp_def]

theorem vec_lt_unit : ∀ (n i j : Nat), i < j →
    vec_lt (tab n (fun k => if k = i then (1 : α) else 0))
      (tab n (fun k => if k = j then (1 : α) else 0)) = false := by
  intro n
  induction n with
  | zero => intro i j _; simp [tab, vec_lt]
  | succ n ih =>
    intro i j hij
    rw [tab_cons, tab_cons]
    cases i with
    | zero =>
      have hj : (0 : Nat) ≠ j := by omega
      simp [vec_lt, hj]
    | succ i' =>
      cases j with
      | zero => omega
      | succ j' =>
        have := ih i' j' (by omega)
        simp only [vec_lt, Nat.succ_ne_zero, Nat.add_right_cancel_iff] at this ⊢
        simpa using this

theorem accum_delta (i j k : Nat) :
    accum (fun t => (if t = i then (1 : α) else 0) * (if t = j then 1 else 0)) 0 k
      = if i = j ∧ i < k then 1 else 0 := by
  induction k with
  | zero => simp [accum_zero]
  | succ k ih =>
    rw [accum_succ, ih]
    by_cases h1 : i = j
    · subst h1
      rcases Nat.lt_trichotomy i k with h | h | h
      · have : i < k + 1 := by omega
        have : k ≠ i := by omega
        simp [*]
      · subst h; simp
      · have : ¬ i < k + 1 := by omega
        have : ¬ i < k := by omega
        have : k ≠ i := by omega
        simp [*]
    · by_cases h2 : k = i
      · subst h2; simp [h1]
      · simp [h1, h2]

theorem scan_diag (n : Nat) (d : Nat → Nat → α) (hd : ∀ i j, i < j → j < n → d i j = 0) :
    max_offdiag_scan n (tab2 n n d) = some (0, 1, 0) := by
  rw [max_offdiag_scan]
  have h := forLoop_eq (fun i (st : Nat × Nat × α) =>
      forLoop (fun j (st : Nat × Nat × α) => do
        let x ← get2 (tab2 n n d) i j
        if |x| > st.2.2 then pure (i, j, |x|) else pure st) (i + 1) (n - (i + 1)) st)
    (fun _ => ((0 : Nat), (1 : Nat), (0 : α))) n 0 (by
      intro i _ hi
      have hi' : i < n := by omega
      have h2 := forLoop_eq (fun j (st : Nat × Nat × α) => do
          let x ← get2 (tab2 n n d) i j
          if |x| > st.2.2 then pure (i, j, |x|) else pure st)
        (fun _ => ((0 : Nat), (1 : Nat), (0 : α))) (n - (i + 1)) (i + 1) (by
          intro j hj1 hj2
          have hj : j < n := by omega
          simp only [Option.bind_eq_bind, get2_tab2 _ _ _ _ _ hi' hj, Option.some_bind,
            hd i j (by omega) hj]
          simp)
      exact h2)
  exact h

theorem jacobi_eigen_identity (L : Libm α) (n : Nat) :
    jacobi_eigen L (identity n : Mat α) 100 eps10 = some (identity n, tab n (fun _ => 1)) := by
  have heps : (0 : α) < eps10 := by
    unfold eps10; positivity
  have hlen : (identity n : Mat α).length = n := (isRect_tab2 n n _).1
  have hscan : max_offdiag_scan n (identity n : Mat α) = some (0, 1, 0) :=
    scan_diag n _ (fun i j hij _ => by rw [if_neg (by omega)])
  have hiter : jacobi_iter L n eps10 (99 + 1) (identity n : Mat α) (identity n)
      = some (identity n, identity n) := by
    rw [jacobi_iter_succ, hscan, Option.some_bind, if_pos heps]
  have h100 : (100 : ℤ).toNat = 99 + 1 := by decide
  have hev := eigvals_loop n (identity n : Mat α) (isRect_tab2 n n _)
  rw [jacobi_eigen]
  simp only [Option.bind_eq_bind] at hev ⊢
  rw [hlen, init_V_loop, Option.some_bind, h100, hiter, Option.some_bind]
  simp only []
  rw [hev, Option.some_bind]
  congr 2
  apply tab_congr
  intro i hi
  rw [identity, entry_tab2 _ _ _ _ _ hi hi, if_pos rfl]

theorem svd_identity_general (L : Libm α) (hs : L.sqrt 1 = 1) (n : Nat) (hn : 0 < n) :
    svd L (identity n : Mat α) = some (identity n, identity n, identity n) := by
  have heps : (1 : α) > eps10 := by
    unfold eps10
    rw [gt_iff_lt, div_lt_one (by positivity)]
    norm_num
  have hmax : max (1 : α) 0 = 1 := max_eq_left zero_le_one
  have hgram : tab2 n n (fun i j => accum (fun t =>
        (if t = i then (1 : α) else 0) * (if t = j then 1 else 0)) 0 n) = identity n := by
    rw [identity]
    apply tab2_congr
    intro i j hi _
    rw [accum_delta]
    by_cases h : i = j
    · subst h; simp [hi]
    · simp [h]
  have hA0 : (identity n : Mat α)[0]? = some (tab n (fun j => if 0 = j then 1 else 0)) := by
    rw [identity, tab2, getElem?_tab, if_pos hn]
  have hsorted : sort_desc (tab n (fun i => ((1 : α), tab n (fun j => if j = i then (1 : α) else 0))))
      = tab n (fun i => ((1 : α), tab n (fun j => if j = i then (1 : α) else 0))) := by
    apply sort_desc_of_sorted
    rw [List.pairwise_iff_getElem]
    intro i j _ _ hij
    rw [getElem_tab, getElem_tab, pair_lt_eq_false_iff]
    exact Or.inr ⟨rfl, vec_lt_unit n i j hij⟩
  have hVs : svd_V_sigma L (identity n : Mat α) = some (identity n, tab n (fun _ => 1)) := by
    rw [svd_V_sigma]
    simp only [Option.bind_eq_bind, hA0, Option.some_bind, tab_length]
    have ht := transpose_tab2 n n (fun i j => if i = j then (1 : α) else 0) hn
    have hmm := matmul_tab2 n n n n (fun j i => if i = j then (1 : α) else 0)
      (fun i j => if i = j then (1 : α) else 0) hn (le_refl _)
    rw [← identity] at ht
    rw [ht, Option.some_bind, identity, hmm, Option.some_bind, hgram, jacobi_eigen_identity,
      Option.some_bind]
    have hp := eig_pairs_tab n (fun i j => if i = j then (1 : α) else 0) (fun _ => 1)
    rw [← identity] at hp
    simp only []
    rw [hp, Option.some_bind, hsorted,
      build_V_sigma_tab L n (fun _ => 1) (fun i j => if j = i then (1 : α) else 0), hmax, hs]
  have hS : svd_S n n (tab n (fun _ => (1 : α))) = some (identity n) := by
    rw [svd_S_tab]; rfl
  have hU : svd_U (identity n : Mat α) n n (identity n) (tab n (fun _ => (1 : α)))
      = some (identity n) := by
    have := svd_U_tab n n (fun i j => if i = j then (1 : α) else 0)
      (fun i j => if i = j then (1 : α) else 0) (fun _ => 1) (le_refl _)
    rw [← identity] at this
    rw [this, identity]
    congr 1
    apply tab2_congr
    intro r c _ hc
    have hfun : (fun col => (if r = col then (1 : α) else 0) * (if col = c then 1 else 0))
        = (fun t => (if t = r then (1 : α) else 0) * (if t = c then 1 else 0)) := by
      funext t
      by_cases h : t = r
      · subst h; simp
      · simp [h, Ne.symm h]
    rw [hfun, accum_delta, if_pos ⟨hc, heps⟩, div_one]
    by_cases h : r = c
    · subst h; simp [hc]
    · simp [h]
  rw [svd_eq_bind L n n (identity n) (isRect_tab2 n n _) hn _ _ _ hVs hS, hU, Option.some_bind]
/-! ## The matrix `S` built by `svd` -/

/-- Lines 84-113 of `svd` on an `m x n` matrix with `m, n >= 1` run in bounds
and build an `m x n` matrix `S` that is zero off its main diagonal, with
non-increasing non-negative diagonal entries; every result `svd` returns
carries this `S`, and `svd` returns a result when `n <= m`.  For `n > m`
the later loop on `U` can leave the bounds of `U`, and then nothing is
returned. -/
theorem svd_S_stage_diagonal_sorted (m n : Nat) (A : Mat ℝ) (hA : IsRect m n A)
    (hm : 1 ≤ m) (hn : 1 ≤ n) :
    ∃ V sigma S,
      svd_V_sigma ⟨Real.sqrt, fun y x => (Complex.mk x y).arg, Real.cos, Real.sin⟩ A
        = some (V, sigma) ∧
      svd_S m n sigma = some S ∧ IsRect m n S ∧
      (∀ i j, i < m → j < n → i ≠ j → entry S i j = 0) ∧
      (∀ i j, i ≤ j → j < min m n → entry S j j ≤ entry S i i) ∧
      (∀ i, i < min m n → 0 ≤ entry S i i) ∧
      (∀ U S' V', svd ⟨Real.sqrt, fun y x => (Complex.mk x y).arg, Real.cos, Real.sin⟩ A
        = some (U, S', V') → S' = S) ∧
      (n ≤ m → ∃ U, svd ⟨Real.sqrt, fun y x => (Complex.mk x y).arg, Real.cos, Real.sin⟩ A
        = some (U, S, V)) := by
  have hL : ∀ x : ℝ, (Libm.mk Real.sqrt (fun y x => (Complex.mk x y).arg) Real.cos Real.sin).cos x ^ 2
      + (Libm.mk Real.sqrt (fun y x => (Complex.mk x y).arg) Real.cos Real.sin).sin x ^ 2 = 1 :=
    fun x => Real.cos_sq_add_sin_sq x
  obtain ⟨Vj, e, lam, w, h1, h2, h3, h4, h5, h6, h7, h8, h9, h10⟩ :=
    svd_structure _ hL m n A hA hm
  refine ⟨_, _, _, h7, h8, isRect_tab2 _ _ _, ?_, ?_, ?_, ?_, ?_⟩
  · intro i j hi hj hij
    rw [entry_tab2 _ _ _ _ _ hi hj, if_neg hij]
  · intro i j hij hj
    have hjm : j < m := lt_of_lt_of_le hj (min_le_left _ _)
    have hjn : j < n := lt_of_lt_of_le hj (min_le_right _ _)
    rw [entry_tab2 _ _ _ _ _ hjm hjn, entry_tab2 _ _ _ _ _ (by omega) (by omega), if_pos rfl,
      if_pos rfl]
    show Real.sqrt _ ≤ Real.sqrt _
    apply Real.sqrt_le_sqrt
    rcases Nat.eq_or_lt_of_le hij with h | h
    · subst h; exact le_refl _
    · exact max_le_max (h6 i j h hjn) (le_refl _)
  · intro i hi
    have him : i < m := lt_of_lt_of_le hi (min_le_left _ _)
    have hin : i < n := lt_of_lt_of_le hi (min_le_right _ _)
    rw [entry_tab2 _ _ _ _ _ him hin, if_pos rfl]
    exact Real.sqrt_nonneg _
  · intro U S' V' hsvd
    rw [h9] at hsvd
    obtain ⟨U', _, hU'⟩ := bind_some_eq _ _ _ hsvd
    have := congrArg (fun t => t.2.1) hU'
    exact this.symm
  · intro hnm
    obtain ⟨U, hU, _⟩ := h10 hnm
    exact ⟨U, by rw [h9, hU]; rfl⟩

/-! ## The wide input `[[1, 1]]` -/

theorem svd_V_sigma_wide :
    svd_V_sigma ⟨Real.sqrt, fun y x => (Complex.mk x y).arg, Real.cos, Real.sin⟩ ([[1, 1]] : Mat ℝ)
      = some ([[√2 / 2, √2 / 2], [√2 / 2, -(√2 / 2)]], [√(3 / 2), 1]) := by
  have ht : transpose ([[1, 1]] : Mat ℝ) = some [[1], [1]] := by
    simp [transpose, forLoop, get2, set2, zeros]
  have hm : matmul ([[1], [1]] : Mat ℝ) [[1, 1]] = some [[1, 1], [1, 1]] := by
    simp [matmul, forLoop, get2, set2, zeros]
  have hj := jacobi_eigen_sym_two 1 1 (le_of_lt eps10_lt_one)
  have hp : eig_pairs 2 ([[√2 / 2, √2 / 2], [-(√2 / 2), √2 / 2]] : Mat ℝ) [1, 1 + 1 / 2]
      = some [(1, [√2 / 2, -(√2 / 2)]), (1 + 1 / 2, [√2 / 2, √2 / 2])] := by
    simp [eig_pairs, forLoop, get1, get2, set1]
  have hs : sort_desc ([(1, [√2 / 2, -(√2 / 2)]), (1 + 1 / 2, [√2 / 2, √2 / 2])] : List (ℝ × List ℝ))
      = [(1 + 1 / 2, [√2 / 2, √2 / 2]), (1, [√2 / 2, -(√2 / 2)])] := by
    simp [sort_desc, List.insertionSort, List.orderedInsert, pair_le, pair_lt]
  have hb : build_V_sigma ⟨Real.sqrt, fun y x => (Complex.mk x y).arg, Real.cos, Real.sin⟩ 2
      ([(1 + 1 / 2, [√2 / 2, √2 / 2]), (1, [√2 / 2, -(√2 / 2)])] : List (ℝ × List ℝ))
      = some ([[√2 / 2, √2 / 2], [√2 / 2, -(√2 / 2)]], [√(3 / 2), 1]) := by
    simp [build_V_sigma, forLoop, get1, get2, set1, set2, zeros]
    norm_num
  rw [svd_V_sigma]
  simp only [Option.bind_eq_bind, List.getElem?_cons_zero, Option.some_bind, List.length_cons,
    List.length_nil]
  rw [ht, Option.some_bind, hm, Option.some_bind, hj, Option.some_bind]
  simp only []
  rw [hp, Option.some_bind, hs, hb]

theorem sqrt_three_halves_gt : (eps10 : ℝ) < √(3 / 2) := by
  have h1 : (1 : ℝ) ≤ √(3 / 2) := by
    rw [Real.one_le_sqrt]; norm_num
  exact lt_of_lt_of_le eps10_lt_one h1

theorem svd_S_wide : svd_S 1 2 ([√(3 / 2), 1] : List ℝ) = some [[√(3 / 2), 0]] := by
  simp [svd_S, forLoop, get1, set2, zeros]

theorem svd_U_wide :
    svd_U ([[1, 1]] : Mat ℝ) 1 2 [[√2 / 2, √2 / 2], [√2 / 2, -(√2 / 2)]] [√(3 / 2), 1] = none := by
  have h0 := sqrt_three_halves_gt
  have h0' : (eps10 : ℝ) < √3 / √2 := by simpa using h0
  have h1 : (eps10 : ℝ) < 1 := eps10_lt_one
  simp [svd_U, forLoop, get1, get2, set1, set2, zeros, h0', h1]

theorem svd_wide_none :
    svd ⟨Real.sqrt, fun y x => (Complex.mk x y).arg, Real.cos, Real.sin⟩ ([[1, 1]] : Mat ℝ)
      = none := by
  rw [svd_eq_bind _ 1 2 [[1, 1]] (by simp [IsRect]) (by norm_num) _ _ _ svd_V_sigma_wide svd_S_wide,
    svd_U_wide]
  rfl

/-! ## The zero matrix `[[0]]` -/

theorem svd_zero_one :
    svd ⟨Real.sqrt, fun y x => (Complex.mk x y).arg, Real.cos, Real.sin⟩ ([[0]] : Mat ℝ)
      = some ([[0]], [[0]], [[1]]) := by
  have ht : transpose ([[0]] : Mat ℝ) = some [[0]] := by
    simp [transpose, forLoop, get2, set2, zeros]
  have hm : matmul ([[0]] : Mat ℝ) [[0]] = some [[0]] := by
    simp [matmul, forLoop, get2, set2, zeros]
  have hscan : max_offdiag_scan 1 ([[0]] : Mat ℝ) = some (0, 1, 0) := by
    simp [max_offdiag_scan, forLoop]
  have hj : jacobi_eigen ⟨Real.sqrt, fun y x => (Complex.mk x y).arg, Real.cos, Real.sin⟩
      ([[0]] : Mat ℝ) 100 eps10 = some ([[1]], [0]) := by
    have h100 : (100 : ℤ).toNat = 99 + 1 := by decide
    rw [jacobi_eigen]
    simp only [List.length_cons, List.length_nil, Option.bind_eq_bind]
    have hV : forLoop (fun i V => set2 V i i (1 : ℝ)) 0 1 (zeros 1 1) = some [[1]] := by
      simp [forLoop, set2, zeros]
    rw [hV, Option.some_bind, h100, jacobi_iter_succ, hscan, Option.some_bind,
      if_pos eps10_pos, Option.some_bind]
    simp [forLoop, get2, set1]
  have hVs : svd_V_sigma ⟨Real.sqrt, fun y x => (Complex.mk x y).arg, Real.cos, Real.sin⟩
      ([[0]] : Mat ℝ) = some ([[1]], [0]) := by
    rw [svd_V_sigma]
    simp only [Option.bind_eq_bind, List.getElem?_cons_zero, Option.some_bind, List.length_cons,
      List.length_nil]
    rw [ht, Option.some_bind, hm, Option.some_bind, hj, Option.some_bind]
    simp [eig_pairs, sort_desc, build_V_sigma, forLoop, get1, get2, set1, set2, zeros]
  have hS : svd_S 1 1 ([0] : List ℝ) = some [[0]] := by
    simp [svd_S, forLoop, get1, set2, zeros]
  have hU : svd_U ([[0]] : Mat ℝ) 1 1 [[1]] [0] = some [[0]] := by
    have h0 : ¬ (eps10 : ℝ) < 0 := not_lt.mpr (le_of_lt eps10_pos)
    simp [svd_U, forLoop, get1, zeros, h0]
  rw [svd_eq_bind _ 1 1 [[0]] (by simp [IsRect]) (by norm_num) _ _ _ hVs hS, hU]
  rfl

theorem not_orthogonal_zero : ¬ IsOrthogonal 1 ([[0]] : Mat ℝ) := by
  intro h
  have := h.2 0 0 (by norm_num) (by norm_num)
  simp [entry] at this

/-! ## A non-positive tolerance on a `1 x 1` matrix -/

theorem jacobi_eigen_tol_zero_none :
    jacobi_eigen ⟨Real.sqrt, fun y x => (Complex.mk x y).arg, Real.cos, Real.sin⟩
      ([[0]] : Mat ℝ) 1 0 = none := by
  have hscan : max_offdiag_scan 1 ([[0]] : Mat ℝ) = some (0, 1, 0) := by
    simp [max_offdiag_scan, forLoop]
  have h1 : (1 : ℤ).toNat = 0 + 1 := by decide
  have hV : forLoop (fun i V => set2 V i i (1 : ℝ)) 0 1 (zeros 1 1) = some [[1]] := by
    simp [forLoop, set2, zeros]
  have hrot : jacobi_rotate ⟨Real.sqrt, fun y x => (Complex.mk x y).arg, Real.cos, Real.sin⟩ 1
      ([[0]] : Mat ℝ) [[1]] 0 1 = none := by
    simp [jacobi_rotate, jacobi_phi, get2]
  rw [jacobi_eigen]
  simp only [List.length_cons, List.length_nil, Option.bind_eq_bind]
  rw [hV, Option.some_bind, h1, jacobi_iter_succ, hscan, Option.some_bind, if_neg (lt_irrefl _),
    hrot]
  rfl
/-! ## A `4 x 3` input with a repeated computed eigenvalue -/

theorem rotate_cols_three (c s a0 a1 a2 b0 b1 b2 d0 d1 d2 : α) :
    rotate_cols c s 3 0 1 [[a0, a1, a2], [b0, b1, b2], [d0, d1, d2]]
      = some [[c * a0 - s * a1, s * a0 + c * a1, a2], [c * b0 - s * b1, s * b0 + c * b1, b2],
          [c * d0 - s * d1, s * d0 + c * d1, d2]] := by
  simp [rotate_cols, forLoop, get2, set2]

theorem rotate_rows_three (c s a0 a1 a2 b0 b1 b2 d0 d1 d2 : α) :
    rotate_rows c s 3 0 1 [[a0, a1, a2], [b0, b1, b2], [d0, d1, d2]]
      = some [[c * a0 - s * b0, c * a1 - s * b1, c * a2 - s * b2],
          [s * a0 + c * b0, s * a1 + c * b1, s * a2 + c * b2], [d0, d1, d2]] := by
  simp [rotate_rows, forLoop, get2, set2]

theorem scan_three (a0 a1 a2 b0 b1 b2 d0 d1 d2 : α) (h1 : 0 < |a1|) (h2 : a2 = 0) (h3 : b2 = 0) :
    max_offdiag_scan 3 [[a0, a1, a2], [b0, b1, b2], [d0, d1, d2]] = some (0, 1, |a1|) := by
  subst h2; subst h3
  have h4 : ¬ |a1| < 0 := not_lt.mpr (abs_nonneg _)
  have h5 : a1 ≠ 0 := abs_pos.mp h1
  simp [max_offdiag_scan, forLoop, get2, h4, h5]

theorem scan_three_diag (a0 b1 d2 : α) :
    max_offdiag_scan 3 [[a0, 0, 0], [0, b1, 0], [0, 0, d2]] = some (0, 1, 0) := by
  simp [max_offdiag_scan, forLoop, get2]

/-- The eigen-solver on `AᵗA = [[6, -6, 0], [-6, 6, 0], [0, 0, 9]]`, the Gram
matrix of `A = [[1, -1, 0], [1, -1, 0], [2, -2, 0], [0, 0, 3]]`. -/
theorem jacobi_eigen_tie :
    jacobi_eigen ⟨Real.sqrt, fun y x => (Complex.mk x y).arg, Real.cos, Real.sin⟩
        ([[6, -6, 0], [-6, 6, 0], [0, 0, 9]] : Mat ℝ) 100 eps10
      = some ([[√2 / 2, -(√2 / 2), 0], [√2 / 2, √2 / 2, 0], [0, 0, 1]], [6, 9, 9]) := by
  have hV : forLoop (fun i V => set2 V i i (1 : ℝ)) 0 3 (zeros 3 3)
      = some [[1, 0, 0], [0, 1, 0], [0, 0, 1]] := by
    simp [forLoop, set2, zeros]
  have hr : (√2 / 2 : ℝ) * (√2 / 2) = 1 / 2 := by
    have h22 : (√2 : ℝ) * √2 = 2 := Real.mul_self_sqrt (by norm_num)
    linear_combination (1 / 4) * h22
  have hz : Complex.mk ((6 : ℝ) - 6) (2 * -6) = Complex.mk 0 (-12) := by norm_num
  have hc : Real.cos (1 / 2 * (Complex.mk ((6 : ℝ) - 6) (2 * -6)).arg) = √2 / 2 := by
    rw [hz, real_half_arg_down (-12) (by norm_num), Real.cos_neg, Real.cos_pi_div_four]
  have hs : Real.sin (1 / 2 * (Complex.mk ((6 : ℝ) - 6) (2 * -6)).arg) = -(√2 / 2) := by
    rw [hz, real_half_arg_down (-12) (by norm_num), Real.sin_neg, Real.sin_pi_div_four]
  have hphi : jacobi_phi ⟨Real.sqrt, fun y x => (Complex.mk x y).arg, Real.cos, Real.sin⟩
      ([[6, -6, 0], [-6, 6, 0], [0, 0, 9]] : Mat ℝ) 0 1
      = some (1 / 2 * (Complex.mk ((6 : ℝ) - 6) (2 * -6)).arg) := by
    simp [jacobi_phi, get2]
  have hrot : jacobi_rotate ⟨Real.sqrt, fun y x => (Complex.mk x y).arg, Real.cos, Real.sin⟩ 3
      ([[6, -6, 0], [-6, 6, 0], [0, 0, 9]] : Mat ℝ) [[1, 0, 0], [0, 1, 0], [0, 0, 1]] 0 1
      = some ([[6, 0, 0], [0, 9, 0], [0, 0, 9]],
          [[√2 / 2, -(√2 / 2), 0], [√2 / 2, √2 / 2, 0], [0, 0, 1]]) := by
    rw [jacobi_rotate, hphi, Option.some_bind]
    simp only [hc, hs]
    rw [rotate_cols_three, Option.some_bind, rotate_rows_three, Option.some_bind]
    simp only [fix_pp, fix_qq, get2, set2, rotate_cols_three, List.getElem?_cons_zero,
      List.getElem?_cons_succ, Option.some_bind, List.length_cons, List.length_nil, List.set_cons_zero,
      List.set_cons_succ]
    norm_num
    constructor
    · linear_combination (24 * (√2 / 2 * (√2 / 2) + 1 / 2)) * hr
    · linear_combination
        (24 * (√2 / 2 * (√2 / 2)) ^ 2 + 36 * (√2 / 2 * (√2 / 2)) + 18) * hr
  have hscan1 : max_offdiag_scan 3 ([[6, -6, 0], [-6, 6, 0], [0, 0, 9]] : Mat ℝ)
      = some (0, 1, 6) := by
    rw [scan_three _ _ _ _ _ _ _ _ _ (by norm_num) rfl rfl]
    norm_num
  have hiter : jacobi_iter ⟨Real.sqrt, fun y x => (Complex.mk x y).arg, Real.cos, Real.sin⟩ 3 eps10
      (98 + 1 + 1) ([[6, -6, 0], [-6, 6, 0], [0, 0, 9]] : Mat ℝ) [[1, 0, 0], [0, 1, 0], [0, 0, 1]]
      = some ([[6, 0, 0], [0, 9, 0], [0, 0, 9]],
          [[√2 / 2, -(√2 / 2), 0], [√2 / 2, √2 / 2, 0], [0, 0, 1]]) := by
    have h6 : ¬ ((6 : ℝ) < eps10) := not_lt.mpr (le_trans (le_of_lt eps10_lt_one) (by norm_num))
    rw [jacobi_iter_succ, hscan1, Option.some_bind, if_neg h6, hrot, Option.some_bind,
      jacobi_iter_succ, scan_three_diag, Option.some_bind, if_pos eps10_pos]
  rw [jacobi_eigen]
  simp only [List.length_cons, List.length_nil, Option.bind_eq_bind]
  rw [hV, Option.some_bind]
  have h100 : (100 : ℤ).toNat = 98 + 1 + 1 := by decide
  rw [h100, hiter, Option.some_bind]
  simp [forLoop, get2, set1]

/-- The eigenpairs the sorting step of `svd` receives on the input
`[[1, -1, 0], [1, -1, 0], [2, -2, 0], [0, 0, 3]]`. -/
theorem eig_pairs_tie :
    ((transpose ([[1, -1, 0], [1, -1, 0], [2, -2, 0], [0, 0, 3]] : Mat ℝ)).bind fun AT =>
      (matmul AT [[1, -1, 0], [1, -1, 0], [2, -2, 0], [0, 0, 3]]).bind fun ATA =>
      (jacobi_eigen ⟨Real.sqrt, fun y x => (Complex.mk x y).arg, Real.cos, Real.sin⟩
        ATA 100 eps10).bind fun Ve => eig_pairs 3 Ve.1 Ve.2)
      = some [(6, [√2 / 2, √2 / 2, 0]), (9, [-(√2 / 2), √2 / 2, 0]), (9, [0, 0, 1])] := by
  have ht : transpose ([[1, -1, 0], [1, -1, 0], [2, -2, 0], [0, 0, 3]] : Mat ℝ)
      = some [[1, 1, 2, 0], [-1, -1, -2, 0], [0, 0, 0, 3]] := by
    simp [transpose, forLoop, get2, set2, zeros]
  have hm : matmul ([[1, 1, 2, 0], [-1, -1, -2, 0], [0, 0, 0, 3]] : Mat ℝ)
      [[1, -1, 0], [1, -1, 0], [2, -2, 0], [0, 0, 3]]
      = some [[6, -6, 0], [-6, 6, 0], [0, 0, 9]] := by
    have h := matmul_tab2 3 3 4 4
      (fun i j => entry ([[1, 1, 2, 0], [-1, -1, -2, 0], [0, 0, 0, 3]] : Mat ℝ) i j)
      (fun i j => entry ([[1, -1, 0], [1, -1, 0], [2, -2, 0], [0, 0, 3]] : Mat ℝ) i j)
      (by norm_num) (le_refl _)
    rw [← eq_tab2 (by simp [IsRect]), ← eq_tab2 (by simp [IsRect])] at h
    rw [h]
    simp [tab2, tab, List.range_succ, accum, entry]
    norm_num
  rw [ht, Option.some_bind, hm, Option.some_bind, jacobi_eigen_tie, Option.some_bind]
  simp [eig_pairs, forLoop, get1, get2, set1]

theorem sort_desc_tie :
    sort_desc ([(6, [√2 / 2, √2 / 2, 0]), (9, [-(√2 / 2), √2 / 2, 0]), (9, [0, 0, 1])]
        : List (ℝ × List ℝ))
      = [(9, [0, 0, 1]), (9, [-(√2 / 2), √2 / 2, 0]), (6, [√2 / 2, √2 / 2, 0])] := by
  have h2 : (0 : ℝ) < √2 := Real.sqrt_pos.mpr (by norm_num)
  have h3 : ¬ (√2 : ℝ) < 0 := not_lt.mpr (le_of_lt h2)
  norm_num [sort_desc, List.insertionSort, List.orderedInsert, pair_le, pair_lt, vec_lt, h2, h3]

theorem stable_sort_desc_tie :
    stable_sort_desc ([(6, [√2 / 2, √2 / 2, 0]), (9, [-(√2 / 2), √2 / 2, 0]), (9, [0, 0, 1])]
        : List (ℝ × List ℝ))
      = [(9, [-(√2 / 2), √2 / 2, 0]), (9, [0, 0, 1]), (6, [√2 / 2, √2 / 2, 0])] := by
  norm_num [stable_sort_desc, List.insertionSort, List.orderedInsert, List.enum, List.enumFrom]
/-! ## The checked properties -/

theorem columns_tab2 (n : Nat) (f : Nat → Nat → α) :
    columns n (tab2 n n f) = tab n (fun c => tab n (fun r => f r c)) := by
  unfold columns
  apply tab_congr
  intro c hc
  apply tab_congr
  intro r hr
  exact entry_tab2 n n f r c hr hc

theorem map_snd_tab (n : Nat) (f : Nat → α) (g : Nat → List α) :
    (tab n (fun i => (f i, g i))).map Prod.snd = tab n g := by
  simp [tab, List.map_map, Function.comp_def]

/-- C6: for `A` of shape `m x k` and `B` of shape `k x n` with `k >= 1` and
`n >= 1`, `matmul A B` returns an `m x n` matrix `C` whose entry `C[i][j]` is
the sum of `A[i][t] * B[t][j]` over `t = 0..k-1`, accumulated from `0` in
increasing `t`. -/
theorem matmul_entries (A B : Mat α) (m k n : Nat) (hA : IsRect m k A) (hB : IsRect k n B)
    (hk : 1 ≤ k) (hn : 1 ≤ n) :
    ∃ C, matmul A B = some C ∧ IsRect m n C ∧
      ∀ i j, i < m → j < n →
        entry C i j = (List.range k).foldl (fun acc t => acc + entry A i t * entry B t j) 0 := by
  have h := matmul_tab2 m n k k (entry A) (entry B) hk (le_refl _)
  rw [← eq_tab2 hA, ← eq_tab2 hB] at h
  refine ⟨_, h, isRect_tab2 _ _ _, ?_⟩
  intro i j hi hj
  rw [entry_tab2 _ _ _ _ _ hi hj]
  rfl

/-- Instance of C6 on a `2 x 2` product. -/
theorem matmul_entries_witness :
    IsRect 2 2 ([[1, 2], [3, 4]] : Mat ℝ) ∧ IsRect 2 2 ([[5, 6], [7, 8]] : Mat ℝ) ∧
      ∃ C, matmul ([[1, 2], [3, 4]] : Mat ℝ) [[5, 6], [7, 8]] = some C ∧ IsRect 2 2 C ∧
        ∀ i j, i < 2 → j < 2 →
          entry C i j = (List.range 2).foldl
            (fun acc t => acc + entry ([[1, 2], [3, 4]] : Mat ℝ) i t
              * entry ([[5, 6], [7, 8]] : Mat ℝ) t j) 0 :=
  ⟨by simp [IsRect], by simp [IsRect],
    matmul_entries _ _ 2 2 2 (by simp [IsRect]) (by simp [IsRect]) (by norm_num) (by norm_num)⟩

/-- C7 fails: `A = [[1, 2]]` has two columns, `B = [[3]]` has one row, and
`matmul` returns the product over the first column of `A` instead of failing. -/
theorem matmul_mismatch_returns_product :
    IsRect 1 2 ([[1, 2]] : Mat ℝ) ∧ IsRect 1 1 ([[3]] : Mat ℝ) ∧
      matmul ([[1, 2]] : Mat ℝ) [[3]] = some [[3]] := by
  refine ⟨by simp [IsRect], by simp [IsRect], ?_⟩
  simp [matmul, forLoop, get2, set2, zeros]

/-- C7 as amended: `matmul` makes no dimension check.  For `A` of shape
`m x k'` and `B` of shape `k x n` (`k >= 1`, `n >= 1`): when `A` has more
columns than `B` has rows it returns the `m x n` matrix of the sums over
`t = 0..k-1`, the extra columns of `A` being ignored; when `A` has fewer
columns and at least one row, the read `A[0][k']` is out of bounds and no
matrix is returned. -/
theorem matmul_no_dimension_check (A B : Mat α) (m k' k n : Nat) (hA : IsRect m k' A)
    (hB : IsRect k n B) (hk : 1 ≤ k) (hn : 1 ≤ n) :
    (k < k' → ∃ C, matmul A B = some C ∧ IsRect m n C ∧
      ∀ i j, i < m → j < n →
        entry C i j = (List.range k).foldl (fun acc t => acc + entry A i t * entry B t j) 0) ∧
    (k' < k → 1 ≤ m → matmul A B = none) := by
  constructor
  · intro hlt
    have h := matmul_tab2 m n k' k (entry A) (entry B) hk (le_of_lt hlt)
    rw [← eq_tab2 hA, ← eq_tab2 hB] at h
    refine ⟨_, h, isRect_tab2 _ _ _, ?_⟩
    intro i j hi hj
    rw [entry_tab2 _ _ _ _ _ hi hj]
    rfl
  · intro hlt hm
    have h := matmul_tab2_none m n k' k (entry A) (entry B) hm hn hlt
    rw [← eq_tab2 hA, ← eq_tab2 hB] at h
    exact h

/-- Instance of the amended C7 on `A = [[1, 2]]`, `B = [[3]]`. -/
theorem matmul_no_dimension_check_witness :
    IsRect 1 2 ([[1, 2]] : Mat ℝ) ∧ IsRect 1 1 ([[3]] : Mat ℝ) ∧
      ((1 < 2 → ∃ C, matmul ([[1, 2]] : Mat ℝ) [[3]] = some C ∧ IsRect 1 1 C ∧
        ∀ i j, i < 1 → j < 1 →
          entry C i j = (List.range 1).foldl
            (fun acc t => acc + entry ([[1, 2]] : Mat ℝ) i t * entry ([[3]] : Mat ℝ) t j) 0) ∧
      (2 < 1 → 1 ≤ 1 → matmul ([[1, 2]] : Mat ℝ) [[3]] = none)) :=
  ⟨by simp [IsRect], by simp [IsRect],
    matmul_no_dimension_check _ _ 1 2 1 1 (by simp [IsRect]) (by simp [IsRect]) (by norm_num)
      (by norm_num)⟩

/-- C10 fails: on the input `[[1, -1, 0], [1, -1, 0], [2, -2, 0], [0, 0, 3]]`
the solver's eigenpairs are `(6, col 0)`, `(9, col 1)`, `(9, col 2)`; the
sorting step puts the pair of column 2 before the pair of column 1, while the
stable descending sort by eigenvalue keeps column 1 before column 2. -/
theorem sort_desc_not_stable :
    ((transpose ([[1, -1, 0], [1, -1, 0], [2, -2, 0], [0, 0, 3]] : Mat ℝ)).bind fun AT =>
      (matmul AT [[1, -1, 0], [1, -1, 0], [2, -2, 0], [0, 0, 3]]).bind fun ATA =>
      (jacobi_eigen ⟨Real.sqrt, fun y x => (Complex.mk x y).arg, Real.cos, Real.sin⟩
        ATA 100 eps10).bind fun Ve => eig_pairs 3 Ve.1 Ve.2)
      = some [(6, [√2 / 2, √2 / 2, 0]), (9, [-(√2 / 2), √2 / 2, 0]), (9, [0, 0, 1])] ∧
    sort_desc ([(6, [√2 / 2, √2 / 2, 0]), (9, [-(√2 / 2), √2 / 2, 0]), (9, [0, 0, 1])]
        : List (ℝ × List ℝ))
      = [(9, [0, 0, 1]), (9, [-(√2 / 2), √2 / 2, 0]), (6, [√2 / 2, √2 / 2, 0])] ∧
    stable_sort_desc ([(6, [√2 / 2, √2 / 2, 0]), (9, [-(√2 / 2), √2 / 2, 0]), (9, [0, 0, 1])]
        : List (ℝ × List ℝ))
      = [(9, [-(√2 / 2), √2 / 2, 0]), (9, [0, 0, 1]), (6, [√2 / 2, √2 / 2, 0])] ∧
    sort_desc ([(6, [√2 / 2, √2 / 2, 0]), (9, [-(√2 / 2), √2 / 2, 0]), (9, [0, 0, 1])]
        : List (ℝ × List ℝ))
      ≠ stable_sort_desc [(6, [√2 / 2, √2 / 2, 0]), (9, [-(√2 / 2), √2 / 2, 0]), (9, [0, 0, 1])] := by
  refine ⟨eig_pairs_tie, sort_desc_tie, stable_sort_desc_tie, ?_⟩
  rw [sort_desc_tie, stable_sort_desc_tie]
  have h2 : (√2 : ℝ) ≠ 0 := ne_of_gt (Real.sqrt_pos.mpr (by norm_num))
  simp [h2]

/-- C10 as amended: the sequence after the sorting step is the arrangement of
the solver's eigenpairs in descending `operator<` order of
`pair<double, vector<double>>`: it is a permutation of the input, eigenvalues
are non-increasing, two pairs with equal eigenvalues stand in descending
lexicographic order of their eigenvectors (not in order of their original
column index), and it is the only arrangement in that order. -/
theorem sort_desc_lexicographic (ps : List (α × List α)) :
    (sort_desc ps).Perm ps ∧
    (sort_desc ps).Pairwise (fun x y => y.1 < x.1 ∨ (y.1 = x.1 ∧ vec_lt x.2 y.2 = false)) ∧
    ∀ qs : List (α × List α), qs.Perm ps →
      qs.Pairwise (fun x y => y.1 < x.1 ∨ (y.1 = x.1 ∧ vec_lt x.2 y.2 = false)) →
      qs = sort_desc ps := by
  refine ⟨sort_desc_perm ps, ?_, ?_⟩
  · exact (sort_desc_pairwise ps).imp (fun h => (pair_lt_eq_false_iff _ _).mp h)
  · intro qs hp hs
    exact sort_desc_unique ps qs hp (hs.imp (fun h => (pair_lt_eq_false_iff _ _).mpr h))
/-- C3 fails as stated: with `tol = 0` on the `1 x 1` matrix `[[0]]` and one
iteration allowed, the convergence test `0 < 0` does not stop the loop and the
default pivot `(0, 1)` is read outside the matrix; no `V` is produced. -/
theorem jacobi_eigen_zero_tol_out_of_bounds :
    IsRect 1 1 ([[0]] : Mat ℝ) ∧
      jacobi_eigen ⟨Real.sqrt, fun y x => (Complex.mk x y).arg, Real.cos, Real.sin⟩
        ([[0]] : Mat ℝ) 1 0 = none :=
  ⟨by simp [IsRect], jacobi_eigen_tol_zero_none⟩

/-- C3 as amended: for every `n x n` input `D`, every `max_iter`, and every
`tol` with `tol > 0` or `n >= 2`, `jacobi_eigen` performs only in-bounds
accesses and returns a `V` with `VᵗV = I(n)`; and for every `m x k` matrix `A`
with `m, k >= 1`, the `V` that `svd` computes (with the default `tol = 1e-10`)
has as columns a permutation of the columns of the solver's `V` for `AᵗA`, is
orthogonal, is the `V` of every result `svd` returns, and `svd` returns a
result when `k <= m`. -/
theorem jacobi_V_orthogonal (n : Nat) (D : Mat ℝ) (max_iter : ℤ) (tol : ℝ)
    (hD : IsRect n n D) (htol : 0 < tol ∨ 2 ≤ n)
    (m k : Nat) (A : Mat ℝ) (hA : IsRect m k A) (hm : 1 ≤ m) (hk : 1 ≤ k) :
    (∃ V e, jacobi_eigen ⟨Real.sqrt, fun y x => (Complex.mk x y).arg, Real.cos, Real.sin⟩
        D max_iter tol = some (V, e) ∧ IsOrthogonal n V) ∧
    (∃ AT ATA Vj e V sigma,
      transpose A = some AT ∧ matmul AT A = some ATA ∧
      jacobi_eigen ⟨Real.sqrt, fun y x => (Complex.mk x y).arg, Real.cos, Real.sin⟩
        ATA 100 eps10 = some (Vj, e) ∧
      svd_V_sigma ⟨Real.sqrt, fun y x => (Complex.mk x y).arg, Real.cos, Real.sin⟩ A
        = some (V, sigma) ∧
      (columns k V).Perm (columns k Vj) ∧ IsOrthogonal k V ∧
      (∀ U S V', svd ⟨Real.sqrt, fun y x => (Complex.mk x y).arg, Real.cos, Real.sin⟩ A
        = some (U, S, V') → V' = V) ∧
      (k ≤ m → ∃ U S, svd ⟨Real.sqrt, fun y x => (Complex.mk x y).arg, Real.cos, Real.sin⟩ A
        = some (U, S, V))) := by
  have hL : ∀ x : ℝ, (Libm.mk Real.sqrt (fun y x => (Complex.mk x y).arg) Real.cos Real.sin).cos x ^ 2
      + (Libm.mk Real.sqrt (fun y x => (Complex.mk x y).arg) Real.cos Real.sin).sin x ^ 2 = 1 :=
    fun x => Real.cos_sq_add_sin_sq x
  constructor
  · obtain ⟨V, e, h1, h2, _⟩ := jacobi_eigen_spec _ hL n D hD max_iter tol htol
    exact ⟨V, e, h1, h2⟩
  · obtain ⟨Vj, e, lam, w, h1, h2, h3, h4, h5, h6, h7, h8, h9, h10⟩ :=
      svd_structure _ hL m k A hA hm
    have ht := transpose_tab2 m k (entry A) hm
    have hmm := matmul_tab2 k k m m (fun j i => entry A i j) (entry A) hm (le_refl _)
    rw [← eq_tab2 hA] at ht hmm
    refine ⟨_, _, Vj, e, _, _, ht, hmm, h1, h7, ?_, isOrthogonal_tab2 k _ h5, ?_, ?_⟩
    · rw [columns_tab2]
      have hp := (sort_desc_perm (tab k (fun i => (e.getD i 0, tab k (fun j => entry Vj j i))))).map
        Prod.snd
      rw [h4, map_snd_tab, map_snd_tab] at hp
      exact hp
    · intro U S V' hsvd
      rw [h9] at hsvd
      obtain ⟨U', _, hU'⟩ := bind_some_eq _ _ _ hsvd
      have := congrArg (fun t => t.2.2) hU'
      exact this.symm
    · intro hkm
      obtain ⟨U, hU, _⟩ := h10 hkm
      exact ⟨U, _, by rw [h9, hU]; rfl⟩

/-- Instance of the amended C3: the solver on `[[2, 1], [1, 2]]` with the
default parameters, and `svd` on the `3 x 2` matrix `[[1, 2], [3, 4], [5, 6]]`. -/
theorem jacobi_V_orthogonal_witness :
    IsRect 2 2 ([[2, 1], [1, 2]] : Mat ℝ) ∧ ((0 : ℝ) < eps10 ∨ 2 ≤ 2) ∧
    IsRect 3 2 ([[1, 2], [3, 4], [5, 6]] : Mat ℝ) ∧
    ((∃ V e, jacobi_eigen ⟨Real.sqrt, fun y x => (Complex.mk x y).arg, Real.cos, Real.sin⟩
        ([[2, 1], [1, 2]] : Mat ℝ) 100 eps10 = some (V, e) ∧ IsOrthogonal 2 V) ∧
    (∃ AT ATA Vj e V sigma,
      transpose ([[1, 2], [3, 4], [5, 6]] : Mat ℝ) = some AT ∧
      matmul AT [[1, 2], [3, 4], [5, 6]] = some ATA ∧
      jacobi_eigen ⟨Real.sqrt, fun y x => (Complex.mk x y).arg, Real.cos, Real.sin⟩
        ATA 100 eps10 = some (Vj, e) ∧
      svd_V_sigma ⟨Real.sqrt, fun y x => (Complex.mk x y).arg, Real.cos, Real.sin⟩
        ([[1, 2], [3, 4], [5, 6]] : Mat ℝ) = some (V, sigma) ∧
      (columns 2 V).Perm (columns 2 Vj) ∧ IsOrthogonal 2 V ∧
      (∀ U S V', svd ⟨Real.sqrt, fun y x => (Complex.mk x y).arg, Real.cos, Real.sin⟩
        ([[1, 2], [3, 4], [5, 6]] : Mat ℝ) = some (U, S, V') → V' = V) ∧
      (2 ≤ 3 → ∃ U S, svd ⟨Real.sqrt, fun y x => (Complex.mk x y).arg, Real.cos, Real.sin⟩
        ([[1, 2], [3, 4], [5, 6]] : Mat ℝ) = some (U, S, V)))) :=
  ⟨by simp [IsRect], Or.inl eps10_pos, by simp [IsRect],
    jacobi_V_orthogonal 2 _ 100 eps10 (by simp [IsRect]) (Or.inl eps10_pos) 3 2 _
      (by simp [IsRect]) (by norm_num) (by norm_num)⟩
/-- C9: for every `n >= 1`, `svd` applied to the `n x n` identity matrix
returns `U`, `S` and `V` all equal to the `n x n` identity, with no sign
change and no column permutation. -/
theorem svd_identity (n : Nat) (hn : 1 ≤ n) :
    svd ⟨Real.sqrt, fun y x => (Complex.mk x y).arg, Real.cos, Real.sin⟩ (identity n : Mat ℝ)
      = some (identity n, identity n, identity n) :=
  svd_identity_general _ Real.sqrt_one n hn

/-- Instance of C9 for `n = 2`, on the matrix `[[1, 0], [0, 1]]`. -/
theorem svd_identity_witness :
    (identity 2 : Mat ℝ) = [[1, 0], [0, 1]] ∧
    svd ⟨Real.sqrt, fun y x => (Complex.mk x y).arg, Real.cos, Real.sin⟩ (identity 2 : Mat ℝ)
      = some (identity 2, identity 2, identity 2) :=
  ⟨by simp [identity, tab2, tab, List.range_succ], svd_identity 2 (by norm_num)⟩

/-- C5 on `D = [[2, 1], [1, 2]]` (eigenvalues `1` and `3`): the solver stops
by convergence after one rotation and returns the eigenvalues `2` and `5/2`,
because lines 67-68 recompute the diagonal from the already rotated entries;
the first component of `D * V[:,0]` differs from that of `eigvals[0] * V[:,0]`. -/
theorem jacobi_eigen_wrong_eigenvalues :
    jacobi_eigen ⟨Real.sqrt, fun y x => (Complex.mk x y).arg, Real.cos, Real.sin⟩
        ([[2, 1], [1, 2]] : Mat ℝ) 100 eps10
      = some ([[√2 / 2, √2 / 2], [-(√2 / 2), √2 / 2]], [2, 5 / 2]) ∧
    (2 : ℝ) * (√2 / 2) + 1 * -(√2 / 2) ≠ 2 * (√2 / 2) := by
  have h := jacobi_eigen_sym_two 2 1 (le_of_lt eps10_lt_one)
  have h2 : (0 : ℝ) < √2 := Real.sqrt_pos.mpr (by norm_num)
  constructor
  · rw [h]
    norm_num
  · intro h3
    linarith

/-- C8 on the `1 x 2` matrix `[[1, 1]]`: `svd` computes `sigma = [sqrt(3/2), 1]`,
so `sigma[1] > 1e-10` and the loop of lines 118-127 writes column `1` of the
`1 x 1` matrix `U`; that write is out of bounds. -/
theorem svd_wide_U_write_out_of_bounds :
    svd_V_sigma ⟨Real.sqrt, fun y x => (Complex.mk x y).arg, Real.cos, Real.sin⟩ ([[1, 1]] : Mat ℝ)
      = some ([[√2 / 2, √2 / 2], [√2 / 2, -(√2 / 2)]], [√(3 / 2), 1]) ∧
    (eps10 : ℝ) < 1 ∧
    (∀ u x : ℝ, set2 ([[u]] : Mat ℝ) 0 1 x = none) ∧
    svd_U ([[1, 1]] : Mat ℝ) 1 2 [[√2 / 2, √2 / 2], [√2 / 2, -(√2 / 2)]] [√(3 / 2), 1] = none :=
  ⟨svd_V_sigma_wide, eps10_lt_one, fun u x => by simp [set2], svd_U_wide⟩

/-- C1 on the `1 x 2` matrix `[[1, 1]]`: `svd` returns no `U`, `S`, `V`, because
the construction of `U` leaves the bounds of `U`. -/
theorem svd_wide_no_result :
    IsRect 1 2 ([[1, 1]] : Mat ℝ) ∧
      svd ⟨Real.sqrt, fun y x => (Complex.mk x y).arg, Real.cos, Real.sin⟩ ([[1, 1]] : Mat ℝ)
        = none :=
  ⟨by simp [IsRect], svd_wide_none⟩

/-- C2 on the `1 x 1` zero matrix: `svd` returns `U = [[0]]`, whose only column
is left at zero, so `UᵗU` is `[[0]]` and not the identity. -/
theorem svd_zero_matrix_U_not_orthogonal :
    svd ⟨Real.sqrt, fun y x => (Complex.mk x y).arg, Real.cos, Real.sin⟩ ([[0]] : Mat ℝ)
      = some ([[0]], [[0]], [[1]]) ∧ ¬ IsOrthogonal 1 ([[0]] : Mat ℝ) :=
  ⟨svd_zero_one, not_orthogonal_zero⟩

/-- C4 on the `1 x 2` matrix `[[1, 1]]`: lines 84-113 build
`S = [[sqrt(3/2), 0]]`, which is `1 x 2` with a non-negative diagonal, but the
loop on `U` that follows leaves the bounds of `U`, so `svd` returns no `S`. -/
theorem svd_wide_S_not_returned :
    IsRect 1 2 ([[1, 1]] : Mat ℝ) ∧
    (∃ V, svd_V_sigma ⟨Real.sqrt, fun y x => (Complex.mk x y).arg, Real.cos, Real.sin⟩
        ([[1, 1]] : Mat ℝ) = some (V, [√(3 / 2), 1])) ∧
    svd_S 1 2 ([√(3 / 2), 1] : List ℝ) = some [[√(3 / 2), 0]] ∧
    ∀ U S V, svd ⟨Real.sqrt, fun y x => (Complex.mk x y).arg, Real.cos, Real.sin⟩
        ([[1, 1]] : Mat ℝ) ≠ some (U, S, V) := by
  refine ⟨by simp [IsRect], ⟨_, svd_V_sigma_wide⟩, svd_S_wide, ?_⟩
  intro U S V h
  rw [svd_wide_none] at h
  exact Option.noConfusion h
end Lemmas

end SvdOpenmp
